import Mathlib

set_option autoImplicit false

/-!
A shallow embedding of the field-scoped JSON serialization engine of the
`go-api-router` repository: the name normalizer `SnakeCase` and the helper
`FindString` (utilities file), the structural field extractor `jsonMap`, the
flat allow-list encoder `JSONEncode` and the hierarchical encoder
`JSONEncodeHierarchy` (response.go).  Machine strings are modelled as Lean
`String`/`List Char` over their ASCII fragment (every identifier, tag and
allow-list entry in the repository and its tests is ASCII); Go's dynamic
`interface{}` values are modelled by the inductive types `GoVal` and
`Allowed`; fallible writes and reflection panics are modelled with `Except`.
Recursive functions are defined with an explicit fuel argument (structural in
the fuel) so that they reduce inside the kernel; wrapper definitions supply a
sufficient fuel and congruence lemmas show the fuel is irrelevant once large
enough.
-/

/-- ASCII lowercase letter (code points 97-122): the ASCII fragment of the regex
class `\p{Ll}`. -/
def isLowerCh (c : Char) : Bool := 97 ≤ c.toNat && c.toNat ≤ 122

/-- ASCII uppercase letter (code points 65-90): the ASCII fragment of the regex
class `\p{Lu}`. -/
def isUpperCh (c : Char) : Bool := 65 ≤ c.toNat && c.toNat ≤ 90

/-- ASCII digit (code points 48-57): the regex class `\d`. -/
def isDigitCh (c : Char) : Bool := 48 ≤ c.toNat && c.toNat ≤ 57

/--
One leftmost-first match of the Go regular expression
`(?:^[\p{Ll}]|API|JSON|IP|URL|_?\d+|_|[\p{Lu}]+)[\p{Ll}]*`
(`camelCaseRe` in the source) starting at the head of `l`, with Go's
(Perl-style, leftmost-first with greedy quantifier) semantics; `atStart` says
whether the head of `l` is the start of the subject string (for `^`).
Returns the matched token together with the unmatched rest, or `none` when no
match starts at the head of `l`.
-/
def matchTok (atStart : Bool) (l : List Char) : Option (List Char × List Char) :=
  match l with
  | [] => none
  | c :: cs =>
    if atStart && isLowerCh c then
      some (c :: cs.takeWhile isLowerCh, cs.dropWhile isLowerCh)
    else if l.take 3 = ['A', 'P', 'I'] then
      some (['A', 'P', 'I'] ++ (l.drop 3).takeWhile isLowerCh, (l.drop 3).dropWhile isLowerCh)
    else if l.take 4 = ['J', 'S', 'O', 'N'] then
      some (['J', 'S', 'O', 'N'] ++ (l.drop 4).takeWhile isLowerCh, (l.drop 4).dropWhile isLowerCh)
    else if l.take 2 = ['I', 'P'] then
      some (['I', 'P'] ++ (l.drop 2).takeWhile isLowerCh, (l.drop 2).dropWhile isLowerCh)
    else if l.take 3 = ['U', 'R', 'L'] then
      some (['U', 'R', 'L'] ++ (l.drop 3).takeWhile isLowerCh, (l.drop 3).dropWhile isLowerCh)
    else if c = '_' && (match cs with | d :: _ => isDigitCh d | [] => false) then
      some ('_' :: cs.takeWhile isDigitCh ++ (cs.dropWhile isDigitCh).takeWhile isLowerCh,
            (cs.dropWhile isDigitCh).dropWhile isLowerCh)
    else if isDigitCh c then
      some (c :: cs.takeWhile isDigitCh ++ (cs.dropWhile isDigitCh).takeWhile isLowerCh,
            (cs.dropWhile isDigitCh).dropWhile isLowerCh)
    else if c = '_' then
      some ('_' :: cs.takeWhile isLowerCh, cs.dropWhile isLowerCh)
    else if isUpperCh c then
      some (c :: cs.takeWhile isUpperCh ++ ((cs.dropWhile isUpperCh).takeWhile isLowerCh),
            (cs.dropWhile isUpperCh).dropWhile isLowerCh)
    else none

theorem length_dropWhile_le (p : Char → Bool) (l : List Char) :
    (l.dropWhile p).length ≤ l.length := by
  induction l with
  | nil => simp [List.dropWhile]
  | cons c cs ih =>
    simp only [List.dropWhile]
    cases p c <;> simp
    omega

/-- The rest returned by a successful `matchTok` is strictly shorter than the input. -/
theorem matchTok_rest_lt (atStart : Bool) (l : List Char) (t r : List Char)
    (h : matchTok atStart l = some (t, r)) : r.length < l.length := by
  match l with
  | [] => simp [matchTok] at h
  | c :: cs =>
    simp only [matchTok] at h
    split_ifs at h with h1 h2 h3 h4 h5 h6 h7 h8 h9 <;>
      simp only [Option.some.injEq, Prod.mk.injEq] at h <;>
      (try rw [← h.2]) <;> simp only [List.length_cons]
    · have := length_dropWhile_le isLowerCh cs
      omega
    · have hlen : (List.take 3 (c :: cs)).length = 3 := by rw [h2]; rfl
      simp only [List.length_take, List.length_cons] at hlen
      have := length_dropWhile_le isLowerCh ((c :: cs).drop 3)
      simp only [List.length_drop, List.length_cons] at this
      omega
    · have hlen : (List.take 4 (c :: cs)).length = 4 := by rw [h3]; rfl
      simp only [List.length_take, List.length_cons] at hlen
      have := length_dropWhile_le isLowerCh ((c :: cs).drop 4)
      simp only [List.length_drop, List.length_cons] at this
      omega
    · have hlen : (List.take 2 (c :: cs)).length = 2 := by rw [h4]; rfl
      simp only [List.length_take, List.length_cons] at hlen
      have := length_dropWhile_le isLowerCh ((c :: cs).drop 2)
      simp only [List.length_drop, List.length_cons] at this
      omega
    · have hlen : (List.take 3 (c :: cs)).length = 3 := by rw [h5]; rfl
      simp only [List.length_take, List.length_cons] at hlen
      have := length_dropWhile_le isLowerCh ((c :: cs).drop 3)
      simp only [List.length_drop, List.length_cons] at this
      omega
    · have ha := length_dropWhile_le isDigitCh cs
      have hb := length_dropWhile_le isLowerCh (cs.dropWhile isDigitCh)
      omega
    · have ha := length_dropWhile_le isDigitCh cs
      have hb := length_dropWhile_le isLowerCh (List.dropWhile isDigitCh cs)
      omega
    · have := length_dropWhile_le isLowerCh cs
      omega
    · have ha := length_dropWhile_le isUpperCh cs
      have hb := length_dropWhile_le isLowerCh (cs.dropWhile isUpperCh)
      omega

/--
All leftmost-first matches of `camelCaseRe` (Go `FindAllString`), fuel-indexed
so that the definition is structural (hence kernel-reducible).  When no match
starts at the current head, the scan advances by one character, as the Go
regexp engine does.
-/
def tokenizeF : Nat → Bool → List Char → List (List Char)
  | 0, _, _ => []
  | fuel + 1, atStart, l =>
    match matchTok atStart l with
    | some (t, r) => t :: tokenizeF fuel false r
    | none =>
      match l with
      | [] => []
      | _ :: cs => tokenizeF fuel false cs

/-- Fuel is irrelevant for `tokenizeF` once it is at least the input length. -/
theorem tokenizeF_congr : ∀ (n m : Nat) (atStart : Bool) (l : List Char),
    l.length ≤ n → l.length ≤ m → tokenizeF n atStart l = tokenizeF m atStart l := by
  intro n
  induction n with
  | zero =>
    intro m atStart l hn _
    have : l = [] := List.length_eq_zero.mp (Nat.le_zero.mp hn)
    subst this
    cases m <;> simp [tokenizeF, matchTok]
  | succ n ih =>
    intro m atStart l hn hm
    match l with
    | [] => cases m <;> simp [tokenizeF, matchTok]
    | c :: cs =>
      match m with
      | 0 => simp at hm
      | m + 1 =>
        simp only [tokenizeF]
        match htok : matchTok atStart (c :: cs) with
        | some (t, r) =>
          have hr := matchTok_rest_lt atStart (c :: cs) t r htok
          simp only [List.length_cons] at hr hn hm
          dsimp only
          rw [ih m false r (by omega) (by omega)]
        | none =>
          simp only [List.length_cons] at hn hm
          dsimp only
          exact ih m false cs (by omega) (by omega)

/-- `FindAllString camelCaseRe str -1` from the Go source, as a list of tokens. -/
def tokenize (atStart : Bool) (l : List Char) : List (List Char) :=
  tokenizeF l.length atStart l

/-- One unfolding step of `tokenize`. -/
theorem tokenize_step (atStart : Bool) (l : List Char) :
    tokenize atStart l =
      match matchTok atStart l with
      | some (t, r) => t :: tokenize false r
      | none =>
        match l with
        | [] => []
        | _ :: cs => tokenize false cs := by
  match l with
  | [] => simp [tokenize, tokenizeF, matchTok]
  | c :: cs =>
    simp only [tokenize, List.length_cons, tokenizeF]
    match htok : matchTok atStart (c :: cs) with
    | some (t, r) =>
      have hr := matchTok_rest_lt atStart (c :: cs) t r htok
      simp only [List.length_cons] at hr
      dsimp only
      rw [tokenizeF_congr cs.length r.length false r (by omega) (by omega)]
    | none =>
      rfl

/-- ASCII lowercasing of one character (`strings.ToLower` acts bytewise on ASCII). -/
def toLowerCh (c : Char) : Char :=
  if isUpperCh c then Char.ofNat (c.toNat + 32) else c

/--
`strings.ToLower(strings.Replace(word, "_", "", -1))`: drop underscores, then
lowercase (ASCII).
-/
def cleanWordL (w : List Char) : List Char :=
  (w.filter (fun c => c ≠ '_')).map toLowerCh

/-- The tail of `strings.Join(words, "_")`: each further word preceded by `_`. -/
def restJoin : List (List Char) → List Char
  | [] => []
  | w :: ws => '_' :: (w ++ restJoin ws)

/-- `strings.Join(words, "_")` at the character-list level. -/
def joinUS : List (List Char) → List Char
  | [] => []
  | w :: ws => w ++ restJoin ws

/--
`SnakeCase` from the Go source: split the input with `camelCaseRe`
(`FindAllString`), clean each word, join the words with `_`.
-/
def SnakeCase (str : String) : String :=
  String.mk (joinUS ((tokenize true str.data).map cleanWordL))

/--
`FindString` from the Go source: index of the first occurrence of `needle` in
`haystack`, `-1` when absent (Go `int` modelled as `Int`).
-/
def FindString (needle : String) (haystack : List String) : Int :=
  go 0 haystack
where
  go : Int → List String → Int
    | _, [] => -1
    | i, straw :: rest => if needle = straw then i else go (i + 1) rest

example : SnakeCase "testCamelAPI" = "test_camel_api" := by decide
example : SnakeCase "testCamelJSON" = "test_camel_json" := by decide
example : SnakeCase "TestKey" = "test_key" := by decide
example : SnakeCase "_B" = "_b" := by decide
example : SnakeCase "_b" = "b" := by decide
example : FindString "a" ["b", "a"] = 1 := by decide
example : FindString "a" [] = -1 := by decide

mutual
/-- A Go runtime value, as far as the serialization engine inspects it. `vNull`
is a nil pointer (`reflect.Kind` Ptr). -/
inductive GoVal where
  | vInt (n : Int)
  | vStr (s : String)
  | vBool (b : Bool)
  | vNull
  | vPtr (v : GoVal)
  | vStruct (fields : List GoField)
  | vSlice (elems : List GoVal)

/-- One declared struct field: declared name, `json` struct tag (the empty string
when the tag is absent), the embedded/anonymous flag, and the field value. -/
inductive GoField where
  | mk (name : String) (tag : String) (anonymous : Bool) (value : GoVal)
end

def GoField.name : GoField → String
  | .mk n _ _ _ => n

def GoField.tag : GoField → String
  | .mk _ t _ _ => t

def GoField.anonymous : GoField → Bool
  | .mk _ _ a _ => a

def GoField.value : GoField → GoVal
  | .mk _ _ _ v => v

/-- ASCII uppercasing of one character (`strings.ToUpper` acts bytewise on ASCII). -/
def toUpperCh (c : Char) : Char :=
  if isLowerCh c then Char.ofNat (c.toNat - 32) else c

/-- The keep-condition `fieldName[0] == strings.ToUpper(string(fieldName[0]))[0]`
of `jsonMap` (response.go line 187); Go would panic on an empty name (struct
fields never have one), the empty string is mapped to `false` here. -/
def upperFirstByte (s : String) : Bool :=
  match s.data with
  | [] => false
  | c :: _ => toUpperCh c = c

/-- `strings.Index(fieldName, "_") == 0` (response.go line 192). -/
def underscoreFirst (s : String) : Bool :=
  match s.data with
  | [] => false
  | c :: _ => c = '_'

/-- Go exportedness over ASCII names: the first character is an uppercase letter.
`reflect.Value.Interface` panics on values read from fields that are not exported. -/
def isExportedGo (s : String) : Bool :=
  match s.data with
  | [] => false
  | c :: _ => isUpperCh c

/-- `strings.Split(key, ",")[0]`. -/
def firstCommaComp (s : String) : String :=
  String.mk (s.data.takeWhile (fun c => c ≠ ','))

/-- `fieldValues[key] = v` on a Go map: replace the value when the key is present,
insert otherwise (the position of a key in this association list is immaterial:
a Go map is unordered, and every consumer either looks keys up or sorts them). -/
def upsert : List (String × GoVal) → String → GoVal → List (String × GoVal)
  | [], k, v => [(k, v)]
  | (k', v') :: rest, k, v => if k' = k then (k', v) :: rest else (k', v') :: upsert rest k v

/-- `for k, v := range subFields { fieldValues[k] = v }`: merge `sub` into `acc`,
entries of `sub` overriding entries of `acc` with the same key (`sub` has unique
keys, so the fold order over it is immaterial). -/
def upsertAll (acc sub : List (String × GoVal)) : List (String × GoVal) :=
  sub.foldl (fun a kv => upsert a kv.1 kv.2) acc

/-- `fieldType.Kind() == reflect.Ptr` for the stored value. -/
def isPtrVal : GoVal → Bool
  | .vPtr _ => true
  | .vNull => true
  | _ => false

mutual
/--
`jsonMap` (response.go lines 169-216): dereference one pointer level, then run
the field loop.  Go panics (`NumField` on a non-struct) when the dereferenced
value is not a struct; no claim reaches that case and it is modelled by the
empty map.
-/
def jsonMap : GoVal → List (String × GoVal)
  | .vPtr (.vStruct fs) => jsonCore true fs []
  | .vStruct fs => jsonCore false fs []
  | _ => []

/--
The per-field loop of `jsonMap` (response.go lines 184-213): skip fields whose
first byte is not its own uppercasing, skip underscore-prefixed fields, merge
embedded (anonymous) substructures recursively, and store every other field
under `strings.Split(SnakeCase(fieldName), ",")[0]` — the `json` tag is never
consulted.  `addr` says whether the struct value is addressable (exactly when
`jsonMap` received a pointer); then non-pointer field values are stored behind
`val.Addr()`.
-/
def jsonCore : Bool → List GoField → List (String × GoVal) → List (String × GoVal)
  | _, [], acc => acc
  | addr, .mk nm _tg anon v :: rest, acc =>
    if ¬ upperFirstByte nm then jsonCore addr rest acc
    else if underscoreFirst nm then jsonCore addr rest acc
    else if anon then jsonCore addr rest (upsertAll acc (jsonMap v))
    else
      jsonCore addr rest
        (upsert acc (firstCommaComp (SnakeCase nm))
          (if ¬ isPtrVal v && addr then GoVal.vPtr v else v))
end

/-- Bytewise (for ASCII: codepoint-wise) comparison of strings, Go `sort.Strings` order. -/
def charListLe : List Char → List Char → Bool
  | [], _ => true
  | _ :: _, [] => false
  | a :: as, b :: bs => if a = b then charListLe as bs else decide (a < b)

def strLeB (a b : String) : Bool := charListLe a.data b.data

def insertByKey (kv : String × GoVal) : List (String × GoVal) → List (String × GoVal)
  | [] => [kv]
  | hd :: tl => if strLeB kv.1 hd.1 then kv :: hd :: tl else hd :: insertByKey kv tl

/-- Sort an association list by key, as Go `json.Marshal` sorts map keys. -/
def sortByKey (l : List (String × GoVal)) : List (String × GoVal) :=
  l.foldr insertByKey []

def hexDigit (n : Nat) : String :=
  if n < 10 then String.mk [Char.ofNat (48 + n)] else String.mk [Char.ofNat (87 + n)]

/-- JSON string escaping as Go `encoding/json` performs it with the default
HTML escaping: quote, backslash, `<`, `>`, `&` and ASCII control characters. -/
def escapeChar (c : Char) : String :=
  if c = '"' then "\\\""
  else if c = '\\' then "\\\\"
  else if c = '<' then "\\u003c"
  else if c = '>' then "\\u003e"
  else if c = '&' then "\\u0026"
  else if c = '\n' then "\\n"
  else if c = '\r' then "\\r"
  else if c = '\t' then "\\t"
  else if c.toNat < 32 then "\\u00" ++ hexDigit (c.toNat / 16) ++ hexDigit (c.toNat % 16)
  else String.mk [c]

def quoteJSON (s : String) : String :=
  "\"" ++ String.join (s.data.map escapeChar) ++ "\""

mutual
/--
Go `encoding/json` default marshaling (the external JSON writer of spec section 6)
for the value shapes of `GoVal`: the representation `json.Marshal` produces when
the engine hands a value through unfiltered.  Struct-tag options beyond the name
(`omitempty`, `string`) are not modelled; no claim exercises them.
-/
def marshal : GoVal → String
  | .vInt n => toString n
  | .vStr s => quoteJSON s
  | .vBool b => if b then "true" else "false"
  | .vNull => "null"
  | .vPtr v => marshal v
  | .vStruct fs => "\x7b" ++ String.intercalate "," (marshalFields fs) ++ "\x7d"
  | .vSlice es => "[" ++ String.intercalate "," (marshalList es) ++ "]"

/-- Default marshaling of the declared fields, in declaration order: unexported
fields and fields tagged `-` are dropped, an untagged anonymous struct field is
flattened in place, every other field is keyed by the tag name when nonempty and
by the declared name otherwise. -/
def marshalFields : List GoField → List String
  | [] => []
  | .mk nm tg anon v :: rest =>
    if ¬ isExportedGo nm then marshalFields rest
    else if tg = "-" then marshalFields rest
    else if anon && tg = "" then
      (match v with
       | .vStruct inner => marshalFields inner
       | w => [quoteJSON nm ++ ":" ++ marshal w]) ++ marshalFields rest
    else
      (quoteJSON (if firstCommaComp tg ≠ "" then firstCommaComp tg else nm) ++ ":" ++ marshal v)
        :: marshalFields rest

def marshalList : List GoVal → List String
  | [] => []
  | v :: rest => marshal v :: marshalList rest
end

/-- Go `json.Marshal` of a `map[string]interface{}`: keys sorted bytewise, no spaces. -/
def marshalMapS (m : List (String × GoVal)) : String :=
  "\x7b" ++ String.intercalate ","
    ((sortByKey m).map (fun kv => quoteJSON kv.1 ++ ":" ++ marshal kv.2)) ++ "\x7d"

/-- Errors surfaced by the embedded encoders: a failing write on the caller-supplied
sink, or a reflection panic (`Value.Interface` on an unexported field, `NumField`
on a non-struct value), which unwinds without writing to the caller's sink. -/
inductive GoErr where
  | sinkErr
  | panicErr
deriving DecidableEq, Repr

/-- One write of `s` through a `json.Encoder` on the caller's sink: when the sink
fails its write, `Encode` returns that error.  On success the result is the byte
stream delivered to the sink. -/
def writeOut (fails : Bool) (s : String) : Except GoErr String :=
  if fails then .error .sinkErr else .ok s

/-- Go `delete(obj, k)` on a `map[string]interface{}` (keys are unique). -/
def deleteKey (m : List (String × GoVal)) (k : String) : List (String × GoVal) :=
  m.filter (fun kv => kv.1 != k)

/-- `for _, k := range toRemove { delete(obj, k) }`. -/
def deleteAll (m : List (String × GoVal)) (rm : List String) : List (String × GoVal) :=
  rm.foldl deleteKey m

/--
`JSONEncode` (response.go lines 102-166).  `fails` models the sink behind the
caller's `json.Encoder` failing its write; on success the result is the full
byte stream written (`Encode` appends a newline).  The removal set is computed
from the keys of the first element only (iteration order over the Go map is
immaterial: the set is only used for deletion).
-/
def JSONEncode (fails : Bool) (objects : GoVal) (allowed : List String) : Except GoErr String :=
  match objects with
  | .vSlice [] => writeOut fails "[]\n"
  | .vSlice (e :: es) =>
    let obj := jsonMap e
    let toRemove := (obj.map Prod.fst).filter (fun k => FindString k allowed == -1)
    let maps := deleteAll obj toRemove :: es.map (fun x => deleteAll (jsonMap x) toRemove)
    writeOut fails ("[" ++ String.intercalate "," (maps.map marshalMapS) ++ "]\n")
  | _ =>
    let obj := jsonMap objects
    let toRemove := (obj.map Prod.fst).filter (fun k => FindString k allowed == -1)
    writeOut fails (marshalMapS (deleteAll obj toRemove) ++ "\n")

/--
The dynamic shape of the `allowed interface{}` argument of `JSONEncodeHierarchy`:
`nil`, a flat `[]string`, an `AllowedKeys` tree (`map[string]interface{}` whose
values are again such shapes), or a value of any other dynamic type (`other`),
which the source's type switch ignores.
-/
inductive Allowed where
  | nil
  | flat (l : List String)
  | tree (t : List (String × Allowed))
  | other

/-- One level of pointer indirection:
`if val.Kind() == reflect.Ptr { val = val.Elem() }`. -/
def derefOnce : GoVal → GoVal
  | .vPtr v => v
  | v => v

/-- Lookup `keys, good := obj[jsonTag]` in an `AllowedKeys` tree (map keys are unique). -/
def lookupA : List (String × Allowed) → String → Option Allowed
  | [], _ => none
  | (k, a) :: rest, s => if k = s then some a else lookupA rest s

mutual
/-- A computable size of an `Allowed` tree, used as fuel bound for the
hierarchical encoder. -/
def sizeA : Allowed → Nat
  | .nil => 1
  | .flat _ => 1
  | .other => 1
  | .tree t => 1 + sizeAList t

def sizeAList : List (String × Allowed) → Nat
  | [] => 0
  | (_, a) :: rest => 1 + sizeA a + sizeAList rest
end

theorem lookupA_size_le {t : List (String × Allowed)} {s : String} {a : Allowed}
    (h : lookupA t s = some a) : sizeA a < sizeAList t + 1 := by
  induction t with
  | nil => simp [lookupA] at h
  | cons kv rest ih =>
    match kv with
    | (k, a') =>
      simp only [lookupA] at h
      split_ifs at h with hk
      · cases h
        simp only [sizeAList]
        omega
      · have := ih h
        simp only [sizeAList]
        omega

/--
The field loop of the `AllowedKeys` branch of `JSONEncodeHierarchy` (response.go
lines 62-92): for each declared struct field in order, look its key up in the
tree — the whole `json` tag when nonempty, otherwise the declared field name.
On a miss the field is skipped; on a hit, `reflect.Value.Interface` panics when
the field is unexported, and otherwise the field value is encoded recursively
(through `enc`) into a fresh local buffer, emitting `"key": <sub>`; an error of
the recursive call short-circuits the loop.
-/
def treeLoop (enc : GoVal → Allowed → Except GoErr String) :
    List GoField → List (String × Allowed) → Except GoErr (List String)
  | [], _ => .ok []
  | .mk nm tg _ v :: rest, t =>
    let jsonTag := if tg = "" then nm else tg
    match lookupA t jsonTag with
    | none => treeLoop enc rest t
    | some keys =>
      if isExportedGo nm then
        match enc v keys with
        | .error e => .error e
        | .ok sub =>
          match treeLoop enc rest t with
          | .error e => .error e
          | .ok outs => .ok (("\"" ++ jsonTag ++ "\": " ++ sub) :: outs)
      else .error .panicErr

/--
`JSONEncodeHierarchy` (response.go lines 43-99), fuel-indexed on the depth of the
allow-list tree (the only argument the recursion descends).  The `nil` branch
passes the value through `json.NewEncoder(w).Encode`; the `[]string` branch
delegates to `JSONEncode`; the `AllowedKeys` branch assembles the per-field
buffers and then writes `{`, the comma-join, `}` on the caller's sink with the
write errors explicitly discarded (`_, _ = w.Write(...)`) — so a failing sink
loses the bytes but the call still returns nil; every other `allowed` shape
falls through both type assertions, writes nothing and returns nil.  Recursive
calls write into a local `bytes.Buffer`, which never fails, so they run with
`fails = false`.  One level of pointer indirection is taken first
(`if val.Kind() == reflect.Ptr { val = val.Elem() }`, via `derefOnce`).
-/
def encHierF : Nat → Bool → GoVal → Allowed → Except GoErr String
  | _, fails, objects, .nil => writeOut fails (marshal objects ++ "\n")
  | _, fails, objects, .flat l => JSONEncode fails objects l
  | _, _, _, .other => .ok ""
  | 0, _, _, .tree _ => .ok ""
  | fuel + 1, fails, objects, .tree t =>
    match derefOnce objects with
    | .vStruct flds =>
      match treeLoop (encHierF fuel false) flds t with
      | .error e => .error e
      | .ok outs =>
        if fails then .ok ""
        else .ok ("\x7b" ++ String.intercalate "," outs ++ "\x7d")
    | _ => .error .panicErr

/-- `JSONEncodeHierarchy` with sufficient fuel. -/
def JSONEncodeHierarchy (fails : Bool) (objects : GoVal) (allowed : Allowed) :
    Except GoErr String :=
  encHierF (sizeA allowed) fails objects allowed

/-- Association-list lookup (Go map read `obj[k]`). -/
def lookupV : List (String × GoVal) → String → Option GoVal
  | [], _ => none
  | (k', v') :: rest, k => if k' = k then some v' else lookupV rest k

/-- A record-shaped value: what `jsonMap` traverses without panicking. -/
def isRecordVal : GoVal → Bool
  | .vStruct _ => true
  | .vPtr (.vStruct _) => true
  | _ => false

theorem lookupV_upsert (m : List (String × GoVal)) (k k' : String) (v : GoVal) :
    lookupV (upsert m k v) k' = if k = k' then some v else lookupV m k' := by
  induction m with
  | nil => simp [upsert, lookupV]
  | cons kv rest ih =>
    match kv with
    | (k0, v0) =>
      simp only [upsert]
      by_cases h0 : k0 = k
      · subst h0
        simp only [if_pos rfl, lookupV]
        by_cases h1 : k0 = k'
        · subst h1; simp
        · simp [h1, lookupV]
      · simp only [if_neg h0, lookupV]
        by_cases h1 : k0 = k'
        · subst h1
          have : ¬ k = k0 := fun h => h0 h.symm
          simp [this]
        · simp [h1, ih]

theorem lookupV_upsertAll_not_mem (sub : List (String × GoVal)) :
    ∀ (acc : List (String × GoVal)) (k : String), k ∉ sub.map Prod.fst →
      lookupV (upsertAll acc sub) k = lookupV acc k := by
  induction sub with
  | nil => intro acc k _; rfl
  | cons kv rest ih =>
    intro acc k hk
    simp only [List.map_cons, List.mem_cons] at hk
    push_neg at hk
    simp only [upsertAll, List.foldl_cons]
    have := ih (upsert acc kv.1 kv.2) k hk.2
    simp only [upsertAll] at this
    rw [this, lookupV_upsert]
    exact if_neg (fun h => hk.1 h.symm)

theorem lookupV_upsertAll_mem (sub : List (String × GoVal)) :
    ∀ (acc : List (String × GoVal)) (k : String) (v : GoVal),
      (sub.map Prod.fst).Nodup → lookupV sub k = some v →
      lookupV (upsertAll acc sub) k = some v := by
  induction sub with
  | nil => intro acc k v _ h; simp [lookupV] at h
  | cons kv rest ih =>
    intro acc k v hnd hl
    simp only [List.map_cons, List.nodup_cons] at hnd
    simp only [upsertAll, List.foldl_cons]
    simp only [lookupV] at hl
    split_ifs at hl with hk
    · have hv : kv.2 = v := Option.some.inj hl
      have hnm : k ∉ rest.map Prod.fst := hk ▸ hnd.1
      have := lookupV_upsertAll_not_mem rest (upsert acc kv.1 kv.2) k hnm
      simp only [upsertAll] at this
      rw [this, lookupV_upsert, if_pos hk, hv]
    · have := ih (upsert acc kv.1 kv.2) k v hnd.2 hl
      simpa only [upsertAll] using this

theorem upsert_keys_nodup (m : List (String × GoVal)) (k : String) (v : GoVal)
    (h : (m.map Prod.fst).Nodup) : ((upsert m k v).map Prod.fst).Nodup := by
  induction m with
  | nil => simp [upsert]
  | cons kv rest ih =>
    simp only [List.map_cons, List.nodup_cons] at h
    simp only [upsert]
    split_ifs with h0
    · simp only [List.map_cons, List.nodup_cons]
      exact ⟨h.1, h.2⟩
    · simp only [List.map_cons, List.nodup_cons]
      constructor
      · intro hmem
        -- keys of upsert are keys of rest plus possibly k
        have : ∀ (mm : List (String × GoVal)) (q : String),
            q ∈ (upsert mm k v).map Prod.fst → q ∈ mm.map Prod.fst ∨ q = k := by
          intro mm
          induction mm with
          | nil => intro q hq; simp [upsert] at hq; right; exact hq
          | cons kv' rest' ih' =>
            intro q hq
            simp only [upsert] at hq
            split_ifs at hq with h1
            · simp only [List.map_cons, List.mem_cons] at hq
              rcases hq with hq | hq
              · left; simp [hq]
              · left; simp [hq]
            · simp only [List.map_cons, List.mem_cons] at hq
              rcases hq with hq | hq
              · left; simp [hq]
              · rcases ih' q hq with hh | hh
                · left; simp only [List.map_cons, List.mem_cons]; right; exact hh
                · right; exact hh
        rcases this rest kv.1 hmem with hh | hh
        · exact h.1 hh
        · exact h0 hh
      · exact ih h.2

theorem upsertAll_keys_nodup (sub : List (String × GoVal)) :
    ∀ (acc : List (String × GoVal)), (acc.map Prod.fst).Nodup →
      ((upsertAll acc sub).map Prod.fst).Nodup := by
  induction sub with
  | nil => intro acc h; exact h
  | cons kv rest ih =>
    intro acc h
    simp only [upsertAll, List.foldl_cons]
    exact ih _ (upsert_keys_nodup acc kv.1 kv.2 h)

theorem FindString_go_ne_neg (needle : String) (haystack : List String) :
    ∀ i : Int, 0 ≤ i → needle ∈ haystack → FindString.go needle i haystack ≠ -1 := by
  induction haystack with
  | nil => intro i _ h; cases h
  | cons straw rest ih =>
    intro i hi hmem
    simp only [FindString.go]
    split_ifs with h
    · omega
    · rcases List.mem_cons.mp hmem with h' | h'
      · exact absurd h' h
      · exact ih (i + 1) (by omega) h'

theorem FindString_go_not_mem (needle : String) (haystack : List String) :
    ∀ i : Int, needle ∉ haystack → FindString.go needle i haystack = -1 := by
  induction haystack with
  | nil => intro i _; rfl
  | cons straw rest ih =>
    intro i hmem
    simp only [List.mem_cons] at hmem
    push_neg at hmem
    simp only [FindString.go, if_neg hmem.1]
    exact ih (i + 1) hmem.2

/-- `FindString needle haystack == -1` is exactly non-membership. -/
theorem FindString_eq_neg_one_iff (needle : String) (haystack : List String) :
    FindString needle haystack = -1 ↔ needle ∉ haystack := by
  constructor
  · intro h hmem
    exact FindString_go_ne_neg needle haystack 0 (by omega) hmem h
  · intro h
    exact FindString_go_not_mem needle haystack 0 h

theorem deleteAll_eq_filter (rm : List String) :
    ∀ m : List (String × GoVal), deleteAll m rm = m.filter (fun kv => !(rm.contains kv.1)) := by
  induction rm with
  | nil =>
    intro m
    simp only [deleteAll, List.foldl_nil]
    have : ∀ kv : String × GoVal, (!(([] : List String).contains kv.1)) = true := by
      intro kv; simp
    rw [List.filter_eq_self.mpr (fun kv _ => this kv)]
  | cons k rest ih =>
    intro m
    simp only [deleteAll, List.foldl_cons]
    have h1 : List.foldl deleteKey (deleteKey m k) rest = deleteAll (deleteKey m k) rest := rfl
    rw [h1, ih (deleteKey m k)]
    simp only [deleteKey, List.filter_filter]
    apply List.filter_congr
    intro kv _
    simp only [List.contains_cons, Bool.not_or, Bool.and_comm]
    rcases h : kv.1 == k with _ | _ <;> simp [h, bne]

/-- Deleting every key of a map empties it. -/
theorem deleteAll_all_keys (ks : List String) :
    ∀ m : List (String × GoVal), (∀ kv ∈ m, kv.1 ∈ ks) → deleteAll m ks = [] := by
  intro m hm
  rw [deleteAll_eq_filter]
  apply List.eq_nil_of_length_eq_zero
  rw [List.length_eq_zero]
  apply List.filter_eq_nil_iff.mpr
  intro kv hkv
  simp [hm kv hkv]

theorem jsonCore_append (addr : Bool) (xs ys : List GoField) :
    ∀ acc, jsonCore addr (xs ++ ys) acc = jsonCore addr ys (jsonCore addr xs acc) := by
  induction xs with
  | nil => intro acc; rfl
  | cons f rest ih =>
    intro acc
    cases f with
    | mk nm tg anon v =>
      simp only [List.cons_append, jsonCore]
      split_ifs <;> apply ih

theorem jsonCore_skip1 (addr : Bool) (nm tg : String) (anon : Bool) (v : GoVal)
    (rest : List GoField) (acc : List (String × GoVal)) (h : upperFirstByte nm = false) :
    jsonCore addr (.mk nm tg anon v :: rest) acc = jsonCore addr rest acc := by
  simp [jsonCore, h]

theorem jsonCore_skip2 (addr : Bool) (nm tg : String) (anon : Bool) (v : GoVal)
    (rest : List GoField) (acc : List (String × GoVal))
    (h1 : upperFirstByte nm = true) (h2 : underscoreFirst nm = true) :
    jsonCore addr (.mk nm tg anon v :: rest) acc = jsonCore addr rest acc := by
  simp [jsonCore, h1, h2]

theorem jsonCore_anon (addr : Bool) (nm tg : String) (v : GoVal)
    (rest : List GoField) (acc : List (String × GoVal))
    (h1 : upperFirstByte nm = true) (h2 : underscoreFirst nm = false) :
    jsonCore addr (.mk nm tg true v :: rest) acc =
      jsonCore addr rest (upsertAll acc (jsonMap v)) := by
  simp [jsonCore, h1, h2]

theorem jsonCore_plain (addr : Bool) (nm tg : String) (v : GoVal)
    (rest : List GoField) (acc : List (String × GoVal))
    (h1 : upperFirstByte nm = true) (h2 : underscoreFirst nm = false) :
    jsonCore addr (.mk nm tg false v :: rest) acc =
      jsonCore addr rest
        (upsert acc (firstCommaComp (SnakeCase nm))
          (if ¬ isPtrVal v && addr then GoVal.vPtr v else v)) := by
  simp [jsonCore, h1, h2]

/-- The wire names that processing one declared field writes into the result map. -/
def fieldWriteKeys (f : GoField) : List String :=
  if ¬ upperFirstByte f.name then []
  else if underscoreFirst f.name then []
  else if f.anonymous then (jsonMap f.value).map Prod.fst
  else [firstCommaComp (SnakeCase f.name)]

theorem lookupV_jsonCore_no_write (addr : Bool) (fs : List GoField) :
    ∀ (acc : List (String × GoVal)) (k : String), (∀ f ∈ fs, k ∉ fieldWriteKeys f) →
      lookupV (jsonCore addr fs acc) k = lookupV acc k := by
  induction fs with
  | nil => intro acc k _; rfl
  | cons f rest ih =>
    intro acc k hk
    have hf : k ∉ fieldWriteKeys f := hk f (List.mem_cons_self _ _)
    have hrest : ∀ g ∈ rest, k ∉ fieldWriteKeys g := fun g hg => hk g (List.mem_cons_of_mem _ hg)
    cases f with
    | mk nm tg anon v =>
      simp only [fieldWriteKeys, GoField.name, GoField.anonymous, GoField.value] at hf
      match h1 : upperFirstByte nm with
      | false => rw [jsonCore_skip1 addr nm tg anon v rest acc h1]; exact ih acc k hrest
      | true =>
        match h2 : underscoreFirst nm with
        | true => rw [jsonCore_skip2 addr nm tg anon v rest acc h1 h2]; exact ih acc k hrest
        | false =>
          simp only [h1, h2] at hf
          match anon with
          | true =>
            rw [jsonCore_anon addr nm tg v rest acc h1 h2, ih _ k hrest]
            apply lookupV_upsertAll_not_mem
            simpa using hf
          | false =>
            rw [jsonCore_plain addr nm tg v rest acc h1 h2, ih _ k hrest, lookupV_upsert]
            simp only [if_neg (by simp : ¬¬True), List.mem_singleton] at hf
            simp at hf
            exact if_neg fun h => hf h.symm

theorem jsonCore_keys_nodup (addr : Bool) (fs : List GoField) :
    ∀ acc, (acc.map Prod.fst).Nodup → ((jsonCore addr fs acc).map Prod.fst).Nodup := by
  induction fs with
  | nil => intro acc h; exact h
  | cons f rest ih =>
    intro acc h
    cases f with
    | mk nm tg anon v =>
      match h1 : upperFirstByte nm with
      | false => rw [jsonCore_skip1 addr nm tg anon v rest acc h1]; exact ih acc h
      | true =>
        match h2 : underscoreFirst nm with
        | true => rw [jsonCore_skip2 addr nm tg anon v rest acc h1 h2]; exact ih acc h
        | false =>
          match anon with
          | true =>
            rw [jsonCore_anon addr nm tg v rest acc h1 h2]
            exact ih _ (upsertAll_keys_nodup _ acc h)
          | false =>
            rw [jsonCore_plain addr nm tg v rest acc h1 h2]
            exact ih _ (upsert_keys_nodup acc _ _ h)

theorem jsonMap_keys_nodup (v : GoVal) : ((jsonMap v).map Prod.fst).Nodup := by
  match v with
  | .vStruct fs => exact jsonCore_keys_nodup false fs [] (by simp)
  | .vPtr (.vStruct fs) => exact jsonCore_keys_nodup true fs [] (by simp)
  | .vInt _ | .vStr _ | .vBool _ | .vNull | .vSlice _ => simp [jsonMap]
  | .vPtr (.vInt _) | .vPtr (.vStr _) | .vPtr (.vBool _) | .vPtr .vNull
  | .vPtr (.vPtr _) | .vPtr (.vSlice _) => simp [jsonMap]

theorem sizeA_pos (a : Allowed) : 0 < sizeA a := by
  cases a <;> simp [sizeA]

theorem treeLoop_congr (e1 e2 : GoVal → Allowed → Except GoErr String)
    (t : List (String × Allowed))
    (h : ∀ v a, (∃ key, lookupA t key = some a) → e1 v a = e2 v a) :
    ∀ flds, treeLoop e1 flds t = treeLoop e2 flds t := by
  intro flds
  induction flds with
  | nil => rfl
  | cons f rest ih =>
    cases f with
    | mk nm tg an v =>
      simp only [treeLoop]
      cases hl : lookupA t (if tg = "" then nm else tg) with
      | none => exact ih
      | some keys =>
        dsimp only
        rw [h v keys ⟨_, hl⟩, ih]

theorem encHierF_congr : ∀ (n m : Nat) (fails : Bool) (obj : GoVal) (al : Allowed),
    sizeA al ≤ n → sizeA al ≤ m → encHierF n fails obj al = encHierF m fails obj al := by
  intro n
  induction n with
  | zero =>
    intro m fails obj al hn _
    have := sizeA_pos al
    omega
  | succ n ih =>
    intro m fails obj al hn hm
    match m with
    | 0 => have := sizeA_pos al; omega
    | m + 1 =>
      cases al with
      | nil => rfl
      | flat l => rfl
      | other => rfl
      | tree t =>
        have hsz : sizeA (Allowed.tree t) = 1 + sizeAList t := rfl
        rw [hsz] at hn hm
        have hloop : ∀ flds, treeLoop (encHierF n false) flds t =
            treeLoop (encHierF m false) flds t := by
          apply treeLoop_congr
          intro v a hkey
          rcases hkey with ⟨key, hl⟩
          have hlt := lookupA_size_le hl
          exact ih m false v a (by omega) (by omega)
        simp only [encHierF]
        cases hder : derefOnce obj with
        | vStruct flds => dsimp only; rw [hloop flds]
        | vInt x => rfl
        | vStr x => rfl
        | vBool x => rfl
        | vNull => rfl
        | vPtr x => rfl
        | vSlice x => rfl

/-- Unfolding the `AllowedKeys` branch of `JSONEncodeHierarchy` with the
recursion expressed through the wrapper itself. -/
theorem JSONEncodeHierarchy_tree_step (fails : Bool) (obj : GoVal)
    (t : List (String × Allowed)) :
    JSONEncodeHierarchy fails obj (.tree t) =
      match derefOnce obj with
      | .vStruct flds =>
        match treeLoop (fun v a => JSONEncodeHierarchy false v a) flds t with
        | .error e => .error e
        | .ok outs =>
          if fails then .ok ""
          else .ok ("\x7b" ++ String.intercalate "," outs ++ "\x7d")
      | _ => .error .panicErr := by
  show encHierF (sizeA (.tree t)) fails obj (.tree t) = _
  have hsz : sizeA (Allowed.tree t) = sizeAList t + 1 := by
    simp [sizeA]; omega
  rw [hsz]
  have hloop : ∀ flds, treeLoop (encHierF (sizeAList t) false) flds t =
      treeLoop (fun v a => JSONEncodeHierarchy false v a) flds t := by
    apply treeLoop_congr
    intro v a hkey
    rcases hkey with ⟨key, hl⟩
    have hlt := lookupA_size_le hl
    exact encHierF_congr _ _ false v a (by omega) (le_refl _)
  simp only [encHierF]
  cases hder : derefOnce obj with
  | vStruct flds => dsimp only; rw [hloop flds]
  | vInt x => rfl
  | vStr x => rfl
  | vBool x => rfl
  | vNull => rfl
  | vPtr x => rfl
  | vSlice x => rfl

theorem emptyAllowedWipes (m : List (String × GoVal)) :
    deleteAll m ((m.map Prod.fst).filter (fun k => FindString k [] == -1)) = [] := by
  have hfil : (m.map Prod.fst).filter (fun k => FindString k [] == -1) = m.map Prod.fst :=
    List.filter_eq_self.mpr (fun a _ => rfl)
  rw [hfil]
  exact deleteAll_all_keys (m.map Prod.fst) m
    (fun kv hkv => List.mem_map.mpr ⟨kv, hkv, rfl⟩)

/-- Claim C4: when the allow-list argument of `JSONEncodeHierarchy` is neither nil,
nor a flat `[]string`, nor an `AllowedKeys` tree, the call falls through both type
assertions: it writes nothing at all to the output sink and returns nil (no error),
whatever the input value and however the sink behaves. -/
theorem unknownAllowedSilentNoop (fails : Bool) (objects : GoVal) :
    JSONEncodeHierarchy fails objects Allowed.other = Except.ok "" := rfl

/-- Claim C10: on the flat path a nil/empty allow-list filters everything out:
`FindString` yields `-1` on the empty haystack for every key, so every extracted
field is deleted and `JSONEncode` emits the empty JSON object (the encoder's
newline follows); by contrast, `JSONEncodeHierarchy` with a nil allow-list is an
unfiltered pass-through of the whole record. -/
theorem flatNilAllowlistEmptyObject :
    (∀ k : String, FindString k [] = -1) ∧
    (∀ (fs : List GoField) (fails : Bool),
        JSONEncode fails (GoVal.vStruct fs) [] = writeOut fails "\x7b\x7d\n" ∧
        JSONEncode fails (GoVal.vPtr (GoVal.vStruct fs)) [] = writeOut fails "\x7b\x7d\n") ∧
    (∀ (objects : GoVal) (fails : Bool),
        JSONEncodeHierarchy fails objects Allowed.nil
          = writeOut fails (marshal objects ++ "\n")) := by
  refine ⟨fun k => rfl, fun fs fails => ⟨?_, ?_⟩, fun objects fails => rfl⟩
  · show writeOut fails
      (marshalMapS (deleteAll (jsonMap (GoVal.vStruct fs))
        (((jsonMap (GoVal.vStruct fs)).map Prod.fst).filter
          (fun k => FindString k [] == -1))) ++ "\n") = _
    rw [emptyAllowedWipes]
    rfl
  · show writeOut fails
      (marshalMapS (deleteAll (jsonMap (GoVal.vPtr (GoVal.vStruct fs)))
        (((jsonMap (GoVal.vPtr (GoVal.vStruct fs))).map Prod.fst).filter
          (fun k => FindString k [] == -1))) ++ "\n") = _
    rw [emptyAllowedWipes]
    rfl

/-- Claim C8: the name normalizer recognizes the multi-letter acronyms API, JSON,
URL and IP as single lowercase segments, also when the acronym is immediately
followed by a further uppercase run. -/
theorem snakeCaseAcronyms :
    SnakeCase "testCamelAPI" = "test_camel_api" ∧
    SnakeCase "testCamelJSON" = "test_camel_json" ∧
    SnakeCase "testCamelURL" = "test_camel_url" ∧
    SnakeCase "testCamelIP" = "test_camel_ip" ∧
    SnakeCase "TestAPIWord" = "test_api_word" ∧
    SnakeCase "TestJSONData" = "test_json_data" := by
  refine ⟨?_, ?_, ?_, ?_, ?_, ?_⟩ <;> decide

theorem JSONEncode_sink_fail (objects : GoVal) (allowed : List String) :
    JSONEncode true objects allowed = Except.error GoErr.sinkErr := by
  cases objects with
  | vSlice es => cases es <;> rfl
  | vInt n => rfl
  | vStr s => rfl
  | vBool b => rfl
  | vNull => rfl
  | vPtr v => rfl
  | vStruct fs => rfl

theorem JSONEncode_false_ok (objects : GoVal) (allowed : List String) :
    JSONEncode false objects allowed ≠ Except.error GoErr.sinkErr := by
  cases objects with
  | vSlice es => cases es <;> simp [JSONEncode, writeOut]
  | vInt n => simp [JSONEncode, writeOut]
  | vStr s => simp [JSONEncode, writeOut]
  | vBool b => simp [JSONEncode, writeOut]
  | vNull => simp [JSONEncode, writeOut]
  | vPtr v => simp [JSONEncode, writeOut]
  | vStruct fs => simp [JSONEncode, writeOut]

theorem treeLoop_no_sink (enc : GoVal → Allowed → Except GoErr String)
    (h : ∀ v a, enc v a ≠ Except.error GoErr.sinkErr) :
    ∀ (flds : List GoField) (t : List (String × Allowed)),
      treeLoop enc flds t ≠ Except.error GoErr.sinkErr := by
  intro flds
  induction flds with
  | nil => intro t hcon; cases hcon
  | cons f rest ih =>
    intro t
    cases f with
    | mk nm tg an v =>
      simp only [treeLoop]
      generalize (if tg = "" then nm else tg) = jTag
      cases hl : lookupA t jTag with
      | none => exact ih t
      | some keys =>
        dsimp only
        split_ifs with hexp
        · cases henc : enc v keys with
          | error e =>
            dsimp only
            intro hcon
            injection hcon with he
            exact h v keys (by rw [henc, he])
          | ok sub =>
            dsimp only
            cases hrest : treeLoop enc rest t with
            | error e =>
              dsimp only
              intro hcon
              exact ih t (hrest.trans hcon)
            | ok outs => simp
        · simp

theorem encHierF_false_no_sink : ∀ (fuel : Nat) (objects : GoVal) (al : Allowed),
    encHierF fuel false objects al ≠ Except.error GoErr.sinkErr := by
  intro fuel
  induction fuel with
  | zero =>
    intro objects al
    cases al with
    | nil => simp [encHierF, writeOut]
    | flat l => exact JSONEncode_false_ok objects l
    | other => simp [encHierF]
    | tree t => simp [encHierF]
  | succ fuel ih =>
    intro objects al
    cases al with
    | nil => simp [encHierF, writeOut]
    | flat l => exact JSONEncode_false_ok objects l
    | other => simp [encHierF]
    | tree t =>
      simp only [encHierF]
      cases hder : derefOnce objects with
      | vStruct flds =>
        dsimp only
        cases hloop : treeLoop (encHierF fuel false) flds t with
        | error e =>
          dsimp only
          intro hcon
          injection hcon with he
          exact treeLoop_no_sink _ (fun v a => ih v a) flds t (by rw [hloop, he])
        | ok outs => simp
      | vInt x => simp
      | vStr x => simp
      | vBool x => simp
      | vNull => simp
      | vPtr x => simp
      | vSlice x => simp

/-- Claim C3 counterexample: a sink that fails every write.  On the tree branch the
final writes' errors are discarded (`_, _ = w.Write(...)`), so the call returns nil
(`Except.ok`, with nothing delivered) instead of the sink's error, while with a
healthy sink the same call writes the object — so the error was swallowed, not
propagated. -/
theorem treeSinkErrorSwallowedCex :
    JSONEncodeHierarchy true
        (GoVal.vStruct [GoField.mk "Name" "name" false (GoVal.vStr "x")])
        (Allowed.tree [("name", Allowed.nil)]) = Except.ok "" ∧
    JSONEncodeHierarchy false
        (GoVal.vStruct [GoField.mk "Name" "name" false (GoVal.vStr "x")])
        (Allowed.tree [("name", Allowed.nil)])
      = Except.ok "\x7b\"name\": \"x\"\n\x7d" := by
  exact ⟨rfl, rfl⟩

/-- Claim C3, amended: write errors of the caller's sink are propagated on the nil
branch (plain `Encode`) and on the flat branch (`JSONEncode`), and errors of
recursive calls short-circuit the tree branch; but the tree branch's own final
writes to the caller's sink discard write errors — the call never returns the
sink's error and succeeds or fails independently of the sink. -/
theorem sinkErrorPropagationAmended :
    (∀ objects : GoVal,
        JSONEncodeHierarchy true objects Allowed.nil = Except.error GoErr.sinkErr) ∧
    (∀ (objects : GoVal) (l : List String) (fails : Bool),
        JSONEncodeHierarchy fails objects (Allowed.flat l) = JSONEncode fails objects l ∧
        JSONEncode true objects l = Except.error GoErr.sinkErr) ∧
    (∀ (objects : GoVal) (t : List (String × Allowed)),
        JSONEncodeHierarchy true objects (Allowed.tree t) ≠ Except.error GoErr.sinkErr ∧
        (JSONEncodeHierarchy true objects (Allowed.tree t)).isOk
          = (JSONEncodeHierarchy false objects (Allowed.tree t)).isOk) := by
  refine ⟨fun objects => rfl,
          fun objects l fails => ⟨rfl, JSONEncode_sink_fail objects l⟩,
          fun objects t => ⟨?_, ?_⟩⟩
  · show encHierF (sizeA (Allowed.tree t)) true objects (Allowed.tree t) ≠ _
    have hsz : sizeA (Allowed.tree t) = sizeAList t + 1 := by simp [sizeA]; omega
    rw [hsz]
    simp only [encHierF]
    cases hder : derefOnce objects with
    | vStruct flds =>
      dsimp only
      cases hloop : treeLoop (encHierF (sizeAList t) false) flds t with
      | error e =>
        dsimp only
        intro hcon
        injection hcon with he
        exact treeLoop_no_sink _ (fun v a => encHierF_false_no_sink _ v a) flds t
          (by rw [hloop, he])
      | ok outs => simp
    | vInt x => simp
    | vStr x => simp
    | vBool x => simp
    | vNull => simp
    | vPtr x => simp
    | vSlice x => simp
  · show (encHierF (sizeA (Allowed.tree t)) true objects (Allowed.tree t)).isOk
      = (encHierF (sizeA (Allowed.tree t)) false objects (Allowed.tree t)).isOk
    have hsz : sizeA (Allowed.tree t) = sizeAList t + 1 := by simp [sizeA]; omega
    rw [hsz]
    simp only [encHierF]
    cases hder : derefOnce objects with
    | vStruct flds =>
      dsimp only
      cases hloop : treeLoop (encHierF (sizeAList t) false) flds t with
      | error e => rfl
      | ok outs => rfl
    | vInt x => rfl
    | vStr x => rfl
    | vBool x => rfl
    | vNull => rfl
    | vPtr x => rfl
    | vSlice x => rfl

/-- The spec's example nested record `{foo, bar}` with its `json` tags. -/
def exampleNested : GoVal :=
  .vStruct [GoField.mk "Foo" "foo" false (.vStr "included"),
            GoField.mk "Bar" "bar" false (.vInt 9000)]

/-- The spec's example record `{id, name, nested:{foo, bar}}` with its `json` tags. -/
def exampleParent : GoVal :=
  .vStruct [GoField.mk "ID" "id" false (.vInt 7),
            GoField.mk "Name" "name" false (.vStr "Partial"),
            GoField.mk "Nested" "nested" false exampleNested]

theorem treeLoop_skip_absent (enc : GoVal → Allowed → Except GoErr String)
    (nm tg : String) (an : Bool) (v : GoVal) (t : List (String × Allowed))
    (hl : lookupA t (if tg = "" then nm else tg) = none) :
    ∀ pre post, treeLoop enc (pre ++ GoField.mk nm tg an v :: post) t
      = treeLoop enc (pre ++ post) t := by
  intro pre
  induction pre with
  | nil =>
    intro post
    simp only [List.nil_append, treeLoop, hl]
  | cons g rest ih =>
    intro post
    cases g with
    | mk nm' tg' an' v' =>
      simp only [List.cons_append, treeLoop]
      generalize (if tg' = "" then nm' else tg') = jTag
      cases hl' : lookupA t jTag with
      | none => exact ih post
      | some keys =>
        dsimp only
        simp only [List.append_eq]
        rw [ih post]

/-- Claim C6 counterexample: for the spec's example record and tree
`{"nested": {"bar": nil}}` the hierarchical encoder does exclude `id` and `name`,
but the exact bytes it writes are `{"nested": {"bar": 9000\n}}` — a space follows
each colon and the leaf encoder appends a newline — not the claimed
`{"nested":{"bar":9000}}`. -/
theorem treeExactBytesCex :
    JSONEncodeHierarchy false (.vPtr exampleParent)
        (Allowed.tree [("nested", Allowed.tree [("bar", Allowed.nil)])])
      = Except.ok "\x7b\"nested\": \x7b\"bar\": 9000\n\x7d\x7d" ∧
    ("\x7b\"nested\": \x7b\"bar\": 9000\n\x7d\x7d" : String)
      ≠ "\x7b\"nested\":\x7b\"bar\":9000\x7d\x7d" := by
  exact ⟨rfl, by decide⟩

/-- Claim C6, amended: under a tree allow-list, every declared field whose lookup
key — its whole `json` tag when nonempty, else its declared name — is absent from
the tree's keys is excluded entirely from the output (on the struct and the
pointer-to-struct paths alike); for the example record `{id, name, nested:{foo,bar}}`
with tree `{"nested": {"bar": nil}}` the output consists of exactly the bytes
`{"nested": {"bar": 9000\n}}`: the object contains only the `nested`/`bar` branch,
with a space after each colon and a newline after each leaf value. -/
theorem treeFilteringAmended :
    (∀ (fails : Bool) (pre post : List GoField) (nm tg : String) (an : Bool)
        (v : GoVal) (t : List (String × Allowed)),
        lookupA t (if tg = "" then nm else tg) = none →
        JSONEncodeHierarchy fails (.vStruct (pre ++ GoField.mk nm tg an v :: post))
            (Allowed.tree t)
          = JSONEncodeHierarchy fails (.vStruct (pre ++ post)) (Allowed.tree t) ∧
        JSONEncodeHierarchy fails (.vPtr (.vStruct (pre ++ GoField.mk nm tg an v :: post)))
            (Allowed.tree t)
          = JSONEncodeHierarchy fails (.vPtr (.vStruct (pre ++ post))) (Allowed.tree t)) ∧
    JSONEncodeHierarchy false (.vPtr exampleParent)
        (Allowed.tree [("nested", Allowed.tree [("bar", Allowed.nil)])])
      = Except.ok "\x7b\"nested\": \x7b\"bar\": 9000\n\x7d\x7d" := by
  constructor
  · intro fails pre post nm tg an v t hl
    constructor
    · rw [JSONEncodeHierarchy_tree_step, JSONEncodeHierarchy_tree_step]
      dsimp only [derefOnce]
      rw [treeLoop_skip_absent _ nm tg an v t hl pre post]
    · rw [JSONEncodeHierarchy_tree_step, JSONEncodeHierarchy_tree_step]
      dsimp only [derefOnce]
      rw [treeLoop_skip_absent _ nm tg an v t hl pre post]
  · rfl

/-- Witness for the amended C6 theorem at a concrete record, field and tree. -/
theorem treeFilteringAmendedWitness :
    JSONEncodeHierarchy false
        (.vStruct ([] ++ GoField.mk "ID" "id" false (.vInt 1) :: [GoField.mk "Name" "x" false (.vStr "n")]))
        (Allowed.tree [("x", Allowed.nil)])
      = JSONEncodeHierarchy false (.vStruct ([] ++ [GoField.mk "Name" "x" false (.vStr "n")]))
          (Allowed.tree [("x", Allowed.nil)]) :=
  (treeFilteringAmended.1 false [] [GoField.mk "Name" "x" false (.vStr "n")]
    "ID" "id" false (.vInt 1) [("x", Allowed.nil)] rfl).1

/-- Claim C7: flattening of embedded (anonymous) fields is last-write-wins.  If a
later-declared embedded segment's extracted map contains wire name `k`, and no
field declared after it writes `k`, then the value found under `k` in the final
flat map is the one contributed by that later segment — whatever earlier fields
or earlier embedded segments (inside `pre`) wrote under `k` is overridden. -/
theorem embeddedLastWriteWins
    (pre post : List GoField) (nmB tgB : String) (vB : GoVal) (k : String) (vb : GoVal)
    (hup : upperFirstByte nmB = true) (hun : underscoreFirst nmB = false)
    (hlk : lookupV (jsonMap vB) k = some vb)
    (hpost : ∀ f ∈ post, k ∉ fieldWriteKeys f) :
    lookupV (jsonMap (.vStruct (pre ++ GoField.mk nmB tgB true vB :: post))) k
      = some vb ∧
    lookupV (jsonMap (.vPtr (.vStruct (pre ++ GoField.mk nmB tgB true vB :: post)))) k
      = some vb := by
  constructor
  · have h1 : jsonMap (GoVal.vStruct (pre ++ GoField.mk nmB tgB true vB :: post))
        = jsonCore false (pre ++ GoField.mk nmB tgB true vB :: post) [] := rfl
    rw [h1, jsonCore_append, jsonCore_anon false nmB tgB vB post _ hup hun,
        lookupV_jsonCore_no_write false post _ k hpost]
    exact lookupV_upsertAll_mem (jsonMap vB) _ k vb (jsonMap_keys_nodup vB) hlk
  · have h1 : jsonMap (GoVal.vPtr (GoVal.vStruct (pre ++ GoField.mk nmB tgB true vB :: post)))
        = jsonCore true (pre ++ GoField.mk nmB tgB true vB :: post) [] := rfl
    rw [h1, jsonCore_append, jsonCore_anon true nmB tgB vB post _ hup hun,
        lookupV_jsonCore_no_write true post _ k hpost]
    exact lookupV_upsertAll_mem (jsonMap vB) _ k vb (jsonMap_keys_nodup vB) hlk

/-- Witness for C7: two embedded segments both contributing wire name `x`; the
later one (value 2) wins. -/
theorem embeddedLastWriteWinsWitness :
    lookupV (jsonMap (.vStruct
        ([GoField.mk "A" "" true (.vStruct [GoField.mk "X" "" false (.vInt 1)])] ++
          GoField.mk "B" "" true (.vStruct [GoField.mk "X" "" false (.vInt 2)]) :: []))) "x"
      = some (.vInt 2) :=
  (embeddedLastWriteWins
    [GoField.mk "A" "" true (.vStruct [GoField.mk "X" "" false (.vInt 1)])]
    [] "B" "" (.vStruct [GoField.mk "X" "" false (.vInt 2)]) "x" (.vInt 2)
    rfl rfl rfl (fun f hf => absurd hf (List.not_mem_nil f))).1

theorem toRemove_eq_filter (keys allowed : List String) :
    keys.filter (fun k => FindString k allowed == -1)
      = keys.filter (fun k => !(allowed.contains k)) := by
  apply List.filter_congr
  intro a _
  cases hc : allowed.contains a with
  | true =>
    have hmem : a ∈ allowed := List.mem_of_elem_eq_true hc
    have hne : FindString a allowed ≠ -1 :=
      fun h => (FindString_eq_neg_one_iff a allowed).mp h hmem
    simp [hne]
  | false =>
    have hmem : a ∉ allowed := by
      intro hm
      have h2 : allowed.contains a = true := List.elem_eq_true_of_mem hm
      rw [h2] at hc
      cases hc
    have := (FindString_eq_neg_one_iff a allowed).mpr hmem
    simp [this]

/-- Claim C5: for a non-empty homogeneous collection, the removal set — the wire
names in the first element's extracted map that are not in `allowed` — is computed
once, from the first element only, and those same keys are deleted from every
element's extracted map; the output is the JSON array of the resulting objects in
the original element order (followed by the encoder's newline).  The hypothesis
states that all elements are record-shaped (Go's reflection panics otherwise). -/
theorem removalSetFirstElement
    (fails : Bool) (e : GoVal) (es : List GoVal) (allowed : List String)
    (_hrec : ∀ x ∈ e :: es, isRecordVal x = true) :
    JSONEncode fails (.vSlice (e :: es)) allowed
      = writeOut fails ("[" ++ String.intercalate ","
          ((e :: es).map (fun x => marshalMapS ((jsonMap x).filter
            (fun kv => !((((jsonMap e).map Prod.fst).filter
              (fun k => !(allowed.contains k))).contains kv.1)))))
          ++ "]\n") := by
  show writeOut fails ("[" ++ String.intercalate ","
      ((deleteAll (jsonMap e) (((jsonMap e).map Prod.fst).filter
          (fun k => FindString k allowed == -1)) ::
        es.map (fun x => deleteAll (jsonMap x) (((jsonMap e).map Prod.fst).filter
          (fun k => FindString k allowed == -1)))).map marshalMapS)
      ++ "]\n") = _
  rw [toRemove_eq_filter]
  simp only [deleteAll_eq_filter, List.map_cons, List.map_map, Function.comp]
  rfl

def sampleRec1 : GoVal :=
  .vStruct [GoField.mk "ID" "" false (.vInt 1), GoField.mk "Email" "" false (.vStr "a")]

def sampleRec2 : GoVal :=
  .vStruct [GoField.mk "ID" "" false (.vInt 2), GoField.mk "Email" "" false (.vStr "b")]

/-- Witness for C5 at a concrete two-element collection. -/
theorem removalSetFirstElementWitness :
    JSONEncode false (.vSlice (sampleRec1 :: [sampleRec2])) ["id"]
      = writeOut false ("[" ++ String.intercalate ","
          ((sampleRec1 :: [sampleRec2]).map (fun x => marshalMapS ((jsonMap x).filter
            (fun kv => !((((jsonMap sampleRec1).map Prod.fst).filter
              (fun k => !((["id"] : List String).contains k))).contains kv.1)))))
          ++ "]
") :=
  removalSetFirstElement false sampleRec1 [sampleRec2] ["id"] (by decide)

theorem charOfNat_toNat (n : Nat) (h : n < 1000) : (Char.ofNat n).toNat = n := by
  unfold Char.ofNat
  rw [dif_pos (by unfold Nat.isValidChar; omega)]
  rfl

theorem char_toNat_lt (c : Char) : c.toNat < 1114112 := by
  have := c.valid
  unfold Nat.isValidChar UInt32.isValidChar at this
  have heq : c.toNat = c.val.toNat := rfl
  rw [heq]
  rcases this with h | h <;> omega

theorem isLowerCh_not_upper {c : Char} (h : isLowerCh c = true) : isUpperCh c = false := by
  simp only [isLowerCh, Bool.and_eq_true, decide_eq_true_eq] at h
  simp only [isUpperCh, Bool.and_eq_false_iff]
  right
  simp only [decide_eq_false_iff_not]
  omega

theorem toLowerCh_of_lower {c : Char} (h : isLowerCh c = true) : toLowerCh c = c := by
  simp [toLowerCh, isLowerCh_not_upper h]

theorem toLowerCh_of_not_upper {c : Char} (h : isUpperCh c = false) : toLowerCh c = c := by
  simp [toLowerCh, h]

theorem toLowerCh_upper_isLower {c : Char} (h : isUpperCh c = true) :
    isLowerCh (toLowerCh c) = true := by
  simp only [isUpperCh, Bool.and_eq_true, decide_eq_true_eq] at h
  simp only [toLowerCh, isUpperCh, Bool.and_eq_true, decide_eq_true_eq, if_pos h]
  simp only [isLowerCh, Bool.and_eq_true, decide_eq_true_eq]
  rw [charOfNat_toNat (c.toNat + 32) (by omega)]
  omega

theorem toUpperCh_ne_of_lower {c : Char} (h : isLowerCh c = true) : toUpperCh c ≠ c := by
  simp only [isLowerCh, Bool.and_eq_true, decide_eq_true_eq] at h
  simp only [toUpperCh, isLowerCh, Bool.and_eq_true, decide_eq_true_eq, if_pos h]
  intro heq
  have := congrArg Char.toNat heq
  rw [charOfNat_toNat (c.toNat - 32) (by omega)] at this
  omega

theorem toUpperCh_of_not_lower {c : Char} (h : isLowerCh c = false) : toUpperCh c = c := by
  simp [toUpperCh, h]

/-- A syntactically valid Go field name (over ASCII): it starts with a letter or
an underscore. -/
def validFieldName (s : String) : Bool :=
  match s.data with
  | [] => false
  | c :: _ => isLowerCh c || isUpperCh c || c = '_'

theorem jsonCore_skip_bad (addr : Bool) (nm tg : String) (an : Bool) (v : GoVal)
    (rest : List GoField) (acc : List (String × GoVal))
    (hv : validFieldName nm = true) (he : isExportedGo nm = false) :
    jsonCore addr (GoField.mk nm tg an v :: rest) acc = jsonCore addr rest acc := by
  match hd : nm.data with
  | [] => simp [validFieldName, hd] at hv
  | c :: cs =>
    simp only [validFieldName, hd, Bool.or_eq_true, decide_eq_true_eq] at hv
    simp only [isExportedGo, hd] at he
    rcases hv with (hl | hu) | hus
    · have hne := toUpperCh_ne_of_lower hl
      have h1 : upperFirstByte nm = false := by
        simp [upperFirstByte, hd, hne]
      exact jsonCore_skip1 addr nm tg an v rest acc h1
    · rw [hu] at he; cases he
    · have hll : isLowerCh c = false := by
        rw [hus]
        decide
      have h1 : upperFirstByte nm = true := by
        simp [upperFirstByte, hd, toUpperCh_of_not_lower hll]
      have h2 : underscoreFirst nm = true := by
        simp [underscoreFirst, hd, hus]
      exact jsonCore_skip2 addr nm tg an v rest acc h1 h2

theorem treeLoop_bad_field (enc : GoVal → Allowed → Except GoErr String)
    (nm tg : String) (an : Bool) (v : GoVal) (t : List (String × Allowed))
    (he : isExportedGo nm = false) :
    ∀ pre post, treeLoop enc (pre ++ GoField.mk nm tg an v :: post) t
        = treeLoop enc (pre ++ post) t ∨
      treeLoop enc (pre ++ GoField.mk nm tg an v :: post) t
        = Except.error GoErr.panicErr := by
  intro pre
  induction pre with
  | nil =>
    intro post
    simp only [List.nil_append, treeLoop]
    cases hl : lookupA t (if tg = "" then nm else tg) with
    | none => left; rfl
    | some keys =>
      dsimp only
      rw [if_neg (by rw [he]; exact Bool.false_ne_true)]
      right; rfl
  | cons g rest ih =>
    intro post
    cases g with
    | mk nm' tg' an' v' =>
      simp only [List.cons_append, treeLoop]
      generalize (if tg' = "" then nm' else tg') = jTag
      cases hl' : lookupA t jTag with
      | none => exact ih post
      | some keys =>
        dsimp only
        split_ifs with hexp
        · cases henc : enc v' keys with
          | error e => left; rfl
          | ok sub =>
            dsimp only
            simp only [List.append_eq]
            rcases ih post with hcut | hpanic
            · rw [hcut]; left; rfl
            · rw [hpanic]; right; rfl
        · right; rfl

/-- Claim C2: unexported fields and underscore-prefixed fields never appear in the
encoded output, whatever the allow-list says.  On the flat path (`jsonMap`, hence
`JSONEncode`) such a field is skipped, so removing it from the record leaves the
extracted map and the encoded bytes unchanged at every nesting level.  On the
hierarchical tree path the field is either not matched by the tree (and the
output equals the output without the field) or matching it makes
`reflect.Value.Interface` panic (modelled `Except.error GoErr.panicErr`), which
unwinds before anything is written to the caller's sink — in no case do the
field's name or value reach the output. -/
theorem noPrivateFields :
    (∀ (addr : Bool) (pre post : List GoField) (nm tg : String) (an : Bool) (v : GoVal)
        (acc : List (String × GoVal)),
        validFieldName nm = true → isExportedGo nm = false →
        jsonCore addr (pre ++ GoField.mk nm tg an v :: post) acc
          = jsonCore addr (pre ++ post) acc) ∧
    (∀ (pre post : List GoField) (nm tg : String) (an : Bool) (v : GoVal),
        validFieldName nm = true → isExportedGo nm = false →
        jsonMap (.vStruct (pre ++ GoField.mk nm tg an v :: post))
          = jsonMap (.vStruct (pre ++ post)) ∧
        jsonMap (.vPtr (.vStruct (pre ++ GoField.mk nm tg an v :: post)))
          = jsonMap (.vPtr (.vStruct (pre ++ post))) ∧
        (∀ (fails : Bool) (allowed : List String),
          JSONEncode fails (.vStruct (pre ++ GoField.mk nm tg an v :: post)) allowed
            = JSONEncode fails (.vStruct (pre ++ post)) allowed)) ∧
    (∀ (fails : Bool) (pre post : List GoField) (nm tg : String) (an : Bool) (v : GoVal)
        (t : List (String × Allowed)),
        isExportedGo nm = false →
        (JSONEncodeHierarchy fails (.vStruct (pre ++ GoField.mk nm tg an v :: post))
            (Allowed.tree t)
          = JSONEncodeHierarchy fails (.vStruct (pre ++ post)) (Allowed.tree t) ∨
         JSONEncodeHierarchy fails (.vStruct (pre ++ GoField.mk nm tg an v :: post))
            (Allowed.tree t)
          = Except.error GoErr.panicErr)) := by
  have hcore : ∀ (addr : Bool) (pre post : List GoField) (nm tg : String) (an : Bool)
      (v : GoVal) (acc : List (String × GoVal)),
      validFieldName nm = true → isExportedGo nm = false →
      jsonCore addr (pre ++ GoField.mk nm tg an v :: post) acc
        = jsonCore addr (pre ++ post) acc := by
    intro addr pre post nm tg an v acc hv he
    rw [jsonCore_append, jsonCore_append,
        jsonCore_skip_bad addr nm tg an v post (jsonCore addr pre acc) hv he]
  refine ⟨hcore, ?_, ?_⟩
  · intro pre post nm tg an v hv he
    have h1 : jsonMap (GoVal.vStruct (pre ++ GoField.mk nm tg an v :: post))
        = jsonMap (GoVal.vStruct (pre ++ post)) := by
      show jsonCore false (pre ++ GoField.mk nm tg an v :: post) []
        = jsonCore false (pre ++ post) []
      exact hcore false pre post nm tg an v [] hv he
    have h2 : jsonMap (GoVal.vPtr (GoVal.vStruct (pre ++ GoField.mk nm tg an v :: post)))
        = jsonMap (GoVal.vPtr (GoVal.vStruct (pre ++ post))) := by
      show jsonCore true (pre ++ GoField.mk nm tg an v :: post) []
        = jsonCore true (pre ++ post) []
      exact hcore true pre post nm tg an v [] hv he
    refine ⟨h1, h2, ?_⟩
    intro fails allowed
    show writeOut fails (marshalMapS (deleteAll
        (jsonMap (GoVal.vStruct (pre ++ GoField.mk nm tg an v :: post)))
        (((jsonMap (GoVal.vStruct (pre ++ GoField.mk nm tg an v :: post))).map
          Prod.fst).filter (fun k => FindString k allowed == -1))) ++ "\n") = _
    rw [h1]
    rfl
  · intro fails pre post nm tg an v t he
    rw [JSONEncodeHierarchy_tree_step, JSONEncodeHierarchy_tree_step]
    dsimp only [derefOnce]
    rcases treeLoop_bad_field (fun v a => JSONEncodeHierarchy false v a)
        nm tg an v t he pre post with hcut | hpanic
    · rw [hcut]; left; rfl
    · rw [hpanic]
      right
      rfl

/-- Witness for C2: the unexported field `private` is dropped from the extracted
map even though its wire name is in the allow-list, and the flat encoder output
matches the output of the record without it. -/
theorem noPrivateFieldsWitness :
    JSONEncode false
        (.vStruct ([GoField.mk "ID" "" false (.vInt 1)] ++
          GoField.mk "private" "" false (.vStr "secret") :: []))
        ["id", "private"]
      = JSONEncode false (.vStruct ([GoField.mk "ID" "" false (.vInt 1)] ++ []))
          ["id", "private"] :=
  ((noPrivateFields.2.1 [GoField.mk "ID" "" false (.vInt 1)] []
    "private" "" false (.vStr "secret") rfl rfl).2.2) false ["id", "private"]

theorem mem_takeWhile (p : Char → Bool) (l : List Char) :
    ∀ c ∈ l.takeWhile p, p c = true := by
  induction l with
  | nil => intro c hc; cases hc
  | cons a as ih =>
    intro c hc
    simp only [List.takeWhile] at hc
    cases hp : p a with
    | false => rw [hp] at hc; cases hc
    | true =>
      rw [hp] at hc
      simp only [List.mem_cons] at hc
      rcases hc with hc | hc
      · rw [hc]; exact hp
      · exact ih c hc

theorem takeWhile_append_all (p : Char → Bool) (a : List Char)
    (ha : ∀ c ∈ a, p c = true) (b : List Char) :
    (a ++ b).takeWhile p = a ++ b.takeWhile p := by
  induction a with
  | nil => rfl
  | cons x xs ih =>
    have hx : p x = true := ha x (List.mem_cons_self _ _)
    simp only [List.cons_append, List.takeWhile, hx]
    simp only [List.append_eq]
    rw [ih (fun c hc => ha c (List.mem_cons_of_mem _ hc))]

theorem dropWhile_append_all (p : Char → Bool) (a : List Char)
    (ha : ∀ c ∈ a, p c = true) (b : List Char) :
    (a ++ b).dropWhile p = b.dropWhile p := by
  induction a with
  | nil => rfl
  | cons x xs ih =>
    have hx : p x = true := ha x (List.mem_cons_self _ _)
    simp only [List.cons_append, List.dropWhile, hx]
    simp only [List.append_eq]
    exact ih (fun c hc => ha c (List.mem_cons_of_mem _ hc))

theorem takeWhile_head_false (p : Char → Bool) :
    ∀ l : List Char, (match l with | [] => True | c :: _ => p c = false) →
      l.takeWhile p = [] ∧ l.dropWhile p = l := by
  intro l h
  match l with
  | [] => exact ⟨rfl, rfl⟩
  | c :: cs =>
    simp only at h
    simp [List.takeWhile, List.dropWhile, h]

/-- The shape of every cleaned word the normalizer produces: a run of digits
followed by a run of lowercase letters (either part possibly empty). -/
def wordShapeL (w : List Char) : Prop :=
  ∃ ds ls, w = ds ++ ls ∧ (∀ c ∈ ds, isDigitCh c = true) ∧ (∀ c ∈ ls, isLowerCh c = true)

theorem lower_ne_underscore {c : Char} (h : isLowerCh c = true) : c ≠ '_' := by
  intro heq
  rw [heq] at h
  simp [isLowerCh] at h

theorem upper_ne_underscore {c : Char} (h : isUpperCh c = true) : c ≠ '_' := by
  intro heq
  rw [heq] at h
  simp [isUpperCh] at h

theorem digit_ne_underscore {c : Char} (h : isDigitCh c = true) : c ≠ '_' := by
  intro heq
  rw [heq] at h
  simp [isDigitCh] at h

theorem digit_not_upper {c : Char} (h : isDigitCh c = true) : isUpperCh c = false := by
  simp only [isDigitCh, Bool.and_eq_true, decide_eq_true_eq] at h
  simp only [isUpperCh, Bool.and_eq_false_iff, decide_eq_false_iff_not]
  left
  omega

theorem digit_not_lower {c : Char} (h : isDigitCh c = true) : isLowerCh c = false := by
  simp only [isDigitCh, Bool.and_eq_true, decide_eq_true_eq] at h
  simp only [isLowerCh, Bool.and_eq_false_iff, decide_eq_false_iff_not]
  left
  omega

theorem lower_not_digit {c : Char} (h : isLowerCh c = true) : isDigitCh c = false := by
  simp only [isLowerCh, Bool.and_eq_true, decide_eq_true_eq] at h
  simp only [isDigitCh, Bool.and_eq_false_iff, decide_eq_false_iff_not]
  right
  omega

theorem upper_not_lower {c : Char} (h : isUpperCh c = true) : isLowerCh c = false := by
  simp only [isUpperCh, Bool.and_eq_true, decide_eq_true_eq] at h
  simp only [isLowerCh, Bool.and_eq_false_iff, decide_eq_false_iff_not]
  left
  omega

theorem cleanWordL_append (a b : List Char) :
    cleanWordL (a ++ b) = cleanWordL a ++ cleanWordL b := by
  simp [cleanWordL, List.filter_append, List.map_append]

theorem map_id_of_fix {l : List Char} {f : Char → Char} (h : ∀ c ∈ l, f c = c) :
    l.map f = l := by
  induction l with
  | nil => rfl
  | cons a as ih =>
    simp only [List.map_cons]
    rw [h a (List.mem_cons_self _ _), ih (fun c hc => h c (List.mem_cons_of_mem _ hc))]

theorem cleanWordL_lowers {ls : List Char} (h : ∀ c ∈ ls, isLowerCh c = true) :
    cleanWordL ls = ls := by
  unfold cleanWordL
  rw [List.filter_eq_self.mpr (fun c hc => by
    simp only [decide_eq_true_eq]
    exact lower_ne_underscore (h c hc))]
  exact map_id_of_fix (fun c hc => toLowerCh_of_lower (h c hc))

theorem cleanWordL_digits {ds : List Char} (h : ∀ c ∈ ds, isDigitCh c = true) :
    cleanWordL ds = ds := by
  unfold cleanWordL
  rw [List.filter_eq_self.mpr (fun c hc => by
    simp only [decide_eq_true_eq]
    exact digit_ne_underscore (h c hc))]
  exact map_id_of_fix (fun c hc => toLowerCh_of_not_upper (digit_not_upper (h c hc)))

theorem cleanWordL_uppers {us : List Char} (h : ∀ c ∈ us, isUpperCh c = true) :
    cleanWordL us = us.map toLowerCh ∧ ∀ c ∈ us.map toLowerCh, isLowerCh c = true := by
  constructor
  · unfold cleanWordL
    rw [List.filter_eq_self.mpr (fun c hc => by
      simp only [decide_eq_true_eq]
      exact upper_ne_underscore (h c hc))]
  · intro c hc
    rcases List.mem_map.mp hc with ⟨d, hd, hdc⟩
    rw [← hdc]
    exact toLowerCh_upper_isLower (h d hd)

theorem cleanWordL_underscores {u : List Char} (h : ∀ c ∈ u, c = '_') :
    cleanWordL u = [] := by
  unfold cleanWordL
  rw [List.filter_eq_nil_iff.mpr (fun c hc => by simp [h c hc])]
  rfl

theorem wordShapeL_lowers {ls : List Char} (h : ∀ c ∈ ls, isLowerCh c = true) :
    wordShapeL ls :=
  ⟨[], ls, rfl, fun c hc => absurd hc (List.not_mem_nil c), h⟩

theorem wordShapeL_upper_lower (us ls : List Char) (hu : ∀ c ∈ us, isUpperCh c = true)
    (hl : ∀ c ∈ ls, isLowerCh c = true) : wordShapeL (cleanWordL (us ++ ls)) := by
  rw [cleanWordL_append, (cleanWordL_uppers hu).1, cleanWordL_lowers hl]
  apply wordShapeL_lowers
  intro c hc
  rcases List.mem_append.mp hc with hc | hc
  · exact (cleanWordL_uppers hu).2 c hc
  · exact hl c hc

theorem wordShapeL_und_digit_lower (u ds ls : List Char) (hund : ∀ c ∈ u, c = '_')
    (hd : ∀ c ∈ ds, isDigitCh c = true) (hl : ∀ c ∈ ls, isLowerCh c = true) :
    wordShapeL (cleanWordL (u ++ ds ++ ls)) := by
  rw [cleanWordL_append, cleanWordL_append, cleanWordL_underscores hund,
      cleanWordL_digits hd, cleanWordL_lowers hl]
  exact ⟨ds, ls, by simp, hd, hl⟩

/-- Every token the regex produces cleans to a digit-run followed by a
lowercase-run. -/
theorem matchTok_shape (atStart : Bool) (l : List Char) (t r : List Char)
    (h : matchTok atStart l = some (t, r)) : wordShapeL (cleanWordL t) := by
  match l with
  | [] => simp [matchTok] at h
  | c :: cs =>
    simp only [matchTok] at h
    split_ifs at h with h1 h2 h3 h4 h5 h6 h7 h8 h9 <;>
      simp only [Option.some.injEq, Prod.mk.injEq] at h <;> rw [← h.1]
    · have hall : ∀ d ∈ c :: List.takeWhile isLowerCh cs, isLowerCh d = true := by
        intro d hd
        rcases List.mem_cons.mp hd with hd | hd
        · rw [hd]; exact ((Bool.and_eq_true _ _).mp h1).2
        · exact mem_takeWhile _ _ d hd
      rw [cleanWordL_lowers hall]
      exact wordShapeL_lowers hall
    · exact wordShapeL_upper_lower ['A', 'P', 'I'] _ (by decide)
        (mem_takeWhile _ _)
    · exact wordShapeL_upper_lower ['J', 'S', 'O', 'N'] _ (by decide)
        (mem_takeWhile _ _)
    · exact wordShapeL_upper_lower ['I', 'P'] _ (by decide)
        (mem_takeWhile _ _)
    · exact wordShapeL_upper_lower ['U', 'R', 'L'] _ (by decide)
        (mem_takeWhile _ _)
    · show wordShapeL (cleanWordL (['_'] ++ List.takeWhile isDigitCh cs ++
        List.takeWhile isLowerCh (List.dropWhile isDigitCh cs)))
      exact wordShapeL_und_digit_lower ['_'] _ _ (by decide)
        (mem_takeWhile _ _) (mem_takeWhile _ _)
    · show wordShapeL (cleanWordL (([] : List Char) ++ (c :: List.takeWhile isDigitCh cs) ++
        List.takeWhile isLowerCh (List.dropWhile isDigitCh cs)))
      refine wordShapeL_und_digit_lower [] _ _ (by decide) ?_ (mem_takeWhile _ _)
      intro d hd
      rcases List.mem_cons.mp hd with hd | hd
      · rw [hd]; exact h7
      · exact mem_takeWhile _ _ d hd
    · show wordShapeL (cleanWordL (['_'] ++ ([] : List Char) ++ List.takeWhile isLowerCh cs))
      exact wordShapeL_und_digit_lower ['_'] [] _ (by decide) (by decide)
        (mem_takeWhile _ _)
    · show wordShapeL (cleanWordL ((c :: List.takeWhile isUpperCh cs) ++
        List.takeWhile isLowerCh (List.dropWhile isUpperCh cs)))
      refine wordShapeL_upper_lower _ _ ?_ (mem_takeWhile _ _)
      intro d hd
      rcases List.mem_cons.mp hd with hd | hd
      · rw [hd]; exact h9
      · exact mem_takeWhile _ _ d hd

theorem tokenizeF_shape : ∀ (fuel : Nat) (atStart : Bool) (l : List Char) (t : List Char),
    t ∈ tokenizeF fuel atStart l → wordShapeL (cleanWordL t) := by
  intro fuel
  induction fuel with
  | zero => intro atStart l t ht; cases ht
  | succ fuel ih =>
    intro atStart l t ht
    simp only [tokenizeF] at ht
    cases hm : matchTok atStart l with
    | some tr =>
      rw [hm] at ht
      rcases List.mem_cons.mp ht with ht | ht
      · rw [ht]
        exact matchTok_shape atStart l tr.1 tr.2 (by rw [hm])
      · exact ih false tr.2 t ht
    | none =>
      rw [hm] at ht
      match l with
      | [] => cases ht
      | _ :: cs => exact ih false cs t ht

theorem tokenize_shape (atStart : Bool) (l : List Char) (t : List Char)
    (ht : t ∈ tokenize atStart l) : wordShapeL (cleanWordL t) :=
  tokenizeF_shape l.length atStart l t ht

theorem cleanWordL_cons_keep (x : Char) (rest : List Char) (hx : x ≠ '_') :
    cleanWordL (x :: rest) = toLowerCh x :: cleanWordL rest := by
  simp [cleanWordL, List.filter, hx]

theorem upper_not_digit {c : Char} (h : isUpperCh c = true) : isDigitCh c = false := by
  simp only [isUpperCh, Bool.and_eq_true, decide_eq_true_eq] at h
  simp only [isDigitCh, Bool.and_eq_false_iff, decide_eq_false_iff_not]
  right
  omega

theorem take_ne_of_head {c d : Char} {cs rest : List Char} {n : Nat} (hne : c ≠ d) :
    (c :: cs).take (n + 1) ≠ d :: rest := by
  intro hcon
  rw [List.take_succ_cons] at hcon
  injection hcon with h1 _
  exact hne h1

/-- When the input starts with an identifier character other than `_`, the first
match exists and its cleaned word is nonempty. -/
theorem matchTok_first_ident (c : Char) (cs : List Char)
    (hv : isLowerCh c = true ∨ isUpperCh c = true ∨ isDigitCh c = true) :
    ∃ t r, matchTok true (c :: cs) = some (t, r) ∧ cleanWordL t ≠ [] := by
  have hcu : c ≠ '_' := by
    rcases hv with h | h | h
    · exact lower_ne_underscore h
    · exact upper_ne_underscore h
    · exact digit_ne_underscore h
  rcases hv with h | h | h
  · have hm : matchTok true (c :: cs)
        = some (c :: cs.takeWhile isLowerCh, cs.dropWhile isLowerCh) := by
      simp only [matchTok]
      rw [if_pos (by simp [h])]
    refine ⟨_, _, hm, ?_⟩
    rw [cleanWordL_cons_keep c _ hcu]
    simp
  · have c1 : ¬(true && isLowerCh c) = true := by simp [upper_not_lower h]
    by_cases hA : (c :: cs).take 3 = ['A', 'P', 'I']
    · have hm : matchTok true (c :: cs)
          = some (['A', 'P', 'I'] ++ ((c :: cs).drop 3).takeWhile isLowerCh,
              ((c :: cs).drop 3).dropWhile isLowerCh) := by
        simp only [matchTok]
        rw [if_neg c1, if_pos hA]
      refine ⟨_, _, hm, ?_⟩
      rw [show (['A', 'P', 'I'] ++ List.takeWhile isLowerCh ((c :: cs).drop 3))
          = 'A' :: (['P', 'I'] ++ List.takeWhile isLowerCh ((c :: cs).drop 3)) from rfl,
        cleanWordL_cons_keep 'A' _ (by decide)]
      simp
    · by_cases hJ : (c :: cs).take 4 = ['J', 'S', 'O', 'N']
      · have hm : matchTok true (c :: cs)
            = some (['J', 'S', 'O', 'N'] ++ ((c :: cs).drop 4).takeWhile isLowerCh,
                ((c :: cs).drop 4).dropWhile isLowerCh) := by
          simp only [matchTok]
          rw [if_neg c1, if_neg hA, if_pos hJ]
        refine ⟨_, _, hm, ?_⟩
        rw [show (['J', 'S', 'O', 'N'] ++ List.takeWhile isLowerCh ((c :: cs).drop 4))
            = 'J' :: (['S', 'O', 'N'] ++ List.takeWhile isLowerCh ((c :: cs).drop 4)) from rfl,
          cleanWordL_cons_keep 'J' _ (by decide)]
        simp
      · by_cases hI : (c :: cs).take 2 = ['I', 'P']
        · have hm : matchTok true (c :: cs)
              = some (['I', 'P'] ++ ((c :: cs).drop 2).takeWhile isLowerCh,
                  ((c :: cs).drop 2).dropWhile isLowerCh) := by
            simp only [matchTok]
            rw [if_neg c1, if_neg hA, if_neg hJ, if_pos hI]
          refine ⟨_, _, hm, ?_⟩
          rw [show (['I', 'P'] ++ List.takeWhile isLowerCh ((c :: cs).drop 2))
              = 'I' :: (['P'] ++ List.takeWhile isLowerCh ((c :: cs).drop 2)) from rfl,
            cleanWordL_cons_keep 'I' _ (by decide)]
          simp
        · by_cases hU : (c :: cs).take 3 = ['U', 'R', 'L']
          · have hm : matchTok true (c :: cs)
                = some (['U', 'R', 'L'] ++ ((c :: cs).drop 3).takeWhile isLowerCh,
                    ((c :: cs).drop 3).dropWhile isLowerCh) := by
              simp only [matchTok]
              rw [if_neg c1, if_neg hA, if_neg hJ, if_neg hI, if_pos hU]
            refine ⟨_, _, hm, ?_⟩
            rw [show (['U', 'R', 'L'] ++ List.takeWhile isLowerCh ((c :: cs).drop 3))
                = 'U' :: (['R', 'L'] ++ List.takeWhile isLowerCh ((c :: cs).drop 3)) from rfl,
              cleanWordL_cons_keep 'U' _ (by decide)]
            simp
          · have hm : matchTok true (c :: cs)
                = some (c :: cs.takeWhile isUpperCh ++
                    (cs.dropWhile isUpperCh).takeWhile isLowerCh,
                    (cs.dropWhile isUpperCh).dropWhile isLowerCh) := by
              simp only [matchTok]
              rw [if_neg c1, if_neg hA, if_neg hJ, if_neg hI, if_neg hU,
                if_neg (by simp [hcu]), if_neg (by simp [upper_not_digit h]),
                if_neg (by simpa using hcu), if_pos h]
            refine ⟨_, _, hm, ?_⟩
            rw [show (c :: List.takeWhile isUpperCh cs ++
                List.takeWhile isLowerCh (List.dropWhile isUpperCh cs))
                = (c :: List.takeWhile isUpperCh cs) ++
                  List.takeWhile isLowerCh (List.dropWhile isUpperCh cs) from rfl,
              cleanWordL_append, cleanWordL_cons_keep c _ hcu]
            simp
  · have c1 : ¬(true && isLowerCh c) = true := by simp [digit_not_lower h]
    have hd : ∀ d : Char, isDigitCh d = false → c ≠ d := by
      intro d hdf heq
      rw [heq] at h
      rw [h] at hdf
      cases hdf
    have hm : matchTok true (c :: cs)
        = some (c :: cs.takeWhile isDigitCh ++
            (cs.dropWhile isDigitCh).takeWhile isLowerCh,
            (cs.dropWhile isDigitCh).dropWhile isLowerCh) := by
      simp only [matchTok]
      rw [if_neg c1, if_neg (take_ne_of_head (hd 'A' (by decide))),
        if_neg (take_ne_of_head (hd 'J' (by decide))),
        if_neg (take_ne_of_head (hd 'I' (by decide))),
        if_neg (take_ne_of_head (hd 'U' (by decide))),
        if_neg (by simp [hcu]), if_pos h]
    refine ⟨_, _, hm, ?_⟩
    rw [show (c :: List.takeWhile isDigitCh cs ++
        List.takeWhile isLowerCh (List.dropWhile isDigitCh cs))
        = (c :: List.takeWhile isDigitCh cs) ++
          List.takeWhile isLowerCh (List.dropWhile isDigitCh cs) from rfl,
      cleanWordL_append, cleanWordL_cons_keep c _ hcu]
    simp

/-- The continuation after a join either is empty or starts with `_`. -/
def undHead : List Char → Prop
  | [] => True
  | c :: _ => c = '_'

theorem restJoin_undHead (ws : List (List Char)) : undHead (restJoin ws) := by
  cases ws with
  | nil => trivial
  | cons w ws => rfl

theorem undHead_stop (p : Char → Bool) (hp : p '_' = false) (rest : List Char)
    (h : undHead rest) : rest.takeWhile p = [] ∧ rest.dropWhile p = rest := by
  match rest with
  | [] => exact ⟨rfl, rfl⟩
  | c :: cs =>
    have hc : c = '_' := h
    rw [hc]
    simp [List.takeWhile, List.dropWhile, hp]

theorem lowRest_take_digit (ls rest : List Char) (hl : ∀ c ∈ ls, isLowerCh c = true)
    (hrest : undHead rest) :
    (ls ++ rest).takeWhile isDigitCh = [] ∧ (ls ++ rest).dropWhile isDigitCh = ls ++ rest := by
  match ls with
  | [] =>
    simp only [List.nil_append]
    exact undHead_stop isDigitCh (by decide) rest hrest
  | l0 :: ls' =>
    have h0 : isDigitCh l0 = false := lower_not_digit (hl l0 (List.mem_cons_self _ _))
    simp [List.takeWhile, List.dropWhile, h0]

theorem lowRest_take_lower (ls rest : List Char) (hl : ∀ c ∈ ls, isLowerCh c = true)
    (hrest : undHead rest) :
    (ls ++ rest).takeWhile isLowerCh = ls ∧ (ls ++ rest).dropWhile isLowerCh = rest := by
  rw [takeWhile_append_all isLowerCh ls hl rest, dropWhile_append_all isLowerCh ls hl rest,
    (undHead_stop isLowerCh (by decide) rest hrest).1,
    (undHead_stop isLowerCh (by decide) rest hrest).2, List.append_nil]
  exact ⟨rfl, rfl⟩

theorem digRest_take (ds ls rest : List Char) (hd : ∀ c ∈ ds, isDigitCh c = true)
    (hl : ∀ c ∈ ls, isLowerCh c = true) (hrest : undHead rest) :
    (ds ++ (ls ++ rest)).takeWhile isDigitCh = ds ∧
    (ds ++ (ls ++ rest)).dropWhile isDigitCh = ls ++ rest := by
  rw [takeWhile_append_all isDigitCh ds hd, dropWhile_append_all isDigitCh ds hd,
    (lowRest_take_digit ls rest hl hrest).1, (lowRest_take_digit ls rest hl hrest).2,
    List.append_nil]
  exact ⟨rfl, rfl⟩

theorem matchTok_digit_word (atStart : Bool) (d : Char) (ds ls rest : List Char)
    (hd0 : isDigitCh d = true) (hd : ∀ c ∈ ds, isDigitCh c = true)
    (hl : ∀ c ∈ ls, isLowerCh c = true) (hrest : undHead rest) :
    matchTok atStart ((d :: ds) ++ ls ++ rest) = some ((d :: ds) ++ ls, rest) := by
  have hne : ∀ e : Char, isDigitCh e = false → d ≠ e := by
    intro e hef heq
    rw [heq] at hd0
    rw [hd0] at hef
    cases hef
  have hshape : (d :: ds) ++ ls ++ rest = d :: (ds ++ (ls ++ rest)) := by simp
  rw [hshape]
  simp only [matchTok]
  rw [if_neg (by simp [digit_not_lower hd0]),
    if_neg (take_ne_of_head (hne 'A' (by decide))),
    if_neg (take_ne_of_head (hne 'J' (by decide))),
    if_neg (take_ne_of_head (hne 'I' (by decide))),
    if_neg (take_ne_of_head (hne 'U' (by decide))),
    if_neg (by simp [hne '_' (by decide)]), if_pos hd0,
    (digRest_take ds ls rest hd hl hrest).1, (digRest_take ds ls rest hd hl hrest).2,
    (lowRest_take_lower ls rest hl hrest).1, (lowRest_take_lower ls rest hl hrest).2]

theorem matchTok_start_lower (l0 : Char) (ls rest : List Char)
    (hl0 : isLowerCh l0 = true) (hl : ∀ c ∈ ls, isLowerCh c = true) (hrest : undHead rest) :
    matchTok true ((l0 :: ls) ++ rest) = some (l0 :: ls, rest) := by
  rw [show (l0 :: ls) ++ rest = l0 :: (ls ++ rest) from rfl]
  simp only [matchTok]
  rw [if_pos (by simp [hl0]), (lowRest_take_lower ls rest hl hrest).1,
    (lowRest_take_lower ls rest hl hrest).2]

theorem matchTok_underscore_digit (atStart : Bool) (d0 : Char) (ds' ls rest : List Char)
    (hd0 : isDigitCh d0 = true) (hd : ∀ c ∈ ds', isDigitCh c = true)
    (hl : ∀ c ∈ ls, isLowerCh c = true) (hrest : undHead rest) :
    matchTok atStart (('_' :: ((d0 :: ds') ++ ls)) ++ rest)
      = some ('_' :: ((d0 :: ds') ++ ls), rest) := by
  have hshape : ('_' :: ((d0 :: ds') ++ ls)) ++ rest
      = '_' :: (d0 :: (ds' ++ (ls ++ rest))) := by simp
  rw [hshape]
  simp only [matchTok]
  rw [if_neg (by rw [show isLowerCh '_' = false from rfl]; simp),
    if_neg (take_ne_of_head (by decide : ('_' : Char) ≠ 'A')),
    if_neg (take_ne_of_head (by decide : ('_' : Char) ≠ 'J')),
    if_neg (take_ne_of_head (by decide : ('_' : Char) ≠ 'I')),
    if_neg (take_ne_of_head (by decide : ('_' : Char) ≠ 'U')),
    if_pos (by simp [hd0])]
  rw [show List.takeWhile isDigitCh (d0 :: (ds' ++ (ls ++ rest)))
      = d0 :: List.takeWhile isDigitCh (ds' ++ (ls ++ rest)) from by
        simp [List.takeWhile, hd0],
    show List.dropWhile isDigitCh (d0 :: (ds' ++ (ls ++ rest)))
      = List.dropWhile isDigitCh (ds' ++ (ls ++ rest)) from by
        simp [List.dropWhile, hd0],
    (digRest_take ds' ls rest hd hl hrest).1, (digRest_take ds' ls rest hd hl hrest).2,
    (lowRest_take_lower ls rest hl hrest).1, (lowRest_take_lower ls rest hl hrest).2]
  rfl

theorem matchTok_underscore_lower (atStart : Bool) (ls rest : List Char)
    (hl : ∀ c ∈ ls, isLowerCh c = true) (hrest : undHead rest) :
    matchTok atStart (('_' :: ls) ++ rest) = some ('_' :: ls, rest) := by
  have hshape : ('_' :: ls) ++ rest = '_' :: (ls ++ rest) := by simp
  rw [hshape]
  simp only [matchTok]
  have hnodig : (match ls ++ rest with | d :: _ => isDigitCh d | [] => false) = false := by
    match ls, rest with
    | [], [] => rfl
    | [], c :: _ =>
      have hc : c = '_' := hrest
      simp only [List.nil_append]
      rw [hc]
      decide
    | l0 :: _, _ =>
      have h0 : isLowerCh l0 = true := hl l0 (List.mem_cons_self _ _)
      simp only [List.cons_append]
      exact lower_not_digit h0
  rw [if_neg (by rw [show isLowerCh '_' = false from rfl]; simp),
    if_neg (take_ne_of_head (by decide : ('_' : Char) ≠ 'A')),
    if_neg (take_ne_of_head (by decide : ('_' : Char) ≠ 'J')),
    if_neg (take_ne_of_head (by decide : ('_' : Char) ≠ 'I')),
    if_neg (take_ne_of_head (by decide : ('_' : Char) ≠ 'U')),
    if_neg (by rw [hnodig]; simp),
    if_neg (by rw [show isDigitCh '_' = false from rfl]; simp)]
  simp only [if_true]
  rw [(lowRest_take_lower ls rest hl hrest).1, (lowRest_take_lower ls rest hl hrest).2]

theorem cleanWordL_underscore_cons (w : List Char) :
    cleanWordL ('_' :: w) = cleanWordL w := by
  simp [cleanWordL, List.filter]

theorem cleanWordL_id_of_shape {w : List Char} (h : wordShapeL w) : cleanWordL w = w := by
  rcases h with ⟨ds, ls, heq, hd, hl⟩
  rw [heq, cleanWordL_append, cleanWordL_digits hd, cleanWordL_lowers hl]

/-- Tokenizing the `_`-separated continuation recovers exactly the word list. -/
theorem tokenize_restJoin : ∀ ws : List (List Char), (∀ w ∈ ws, wordShapeL w) →
    (tokenize false (restJoin ws)).map cleanWordL = ws := by
  intro ws
  induction ws with
  | nil => intro _; rfl
  | cons w ws' ih =>
    intro h
    have hw : wordShapeL w := h w (List.mem_cons_self _ _)
    have hws' : ∀ u ∈ ws', wordShapeL u := fun u hu => h u (List.mem_cons_of_mem _ hu)
    rcases hw with ⟨ds, ls, heq, hd, hl⟩
    have hrest := restJoin_undHead ws'
    rw [show restJoin (w :: ws') = ('_' :: w) ++ restJoin ws' from by simp [restJoin]]
    rw [tokenize_step]
    have hm : matchTok false (('_' :: w) ++ restJoin ws')
        = some ('_' :: w, restJoin ws') := by
      rw [heq]
      match ds, hd with
      | [], _ =>
        rw [show ([] : List Char) ++ ls = ls from rfl]
        exact matchTok_underscore_lower false ls (restJoin ws') hl hrest
      | d0 :: ds', hd =>
        exact matchTok_underscore_digit false d0 ds' ls (restJoin ws') 
          (hd d0 (List.mem_cons_self _ _))
          (fun c hc => hd c (List.mem_cons_of_mem _ hc)) hl hrest
    rw [hm]
    dsimp only
    rw [List.map_cons, cleanWordL_underscore_cons,
      cleanWordL_id_of_shape ⟨ds, ls, heq, hd, hl⟩, ih hws']

/-- Tokenizing a joined word list whose first word is nonempty recovers the list. -/
theorem tokenize_joinUS (w0 : List Char) (ws : List (List Char))
    (h0 : wordShapeL w0) (hne : w0 ≠ []) (hws : ∀ w ∈ ws, wordShapeL w) :
    (tokenize true (joinUS (w0 :: ws))).map cleanWordL = w0 :: ws := by
  have hrest := restJoin_undHead ws
  rcases h0 with ⟨ds, ls, heq, hd, hl⟩
  rw [show joinUS (w0 :: ws) = w0 ++ restJoin ws from rfl, tokenize_step]
  have hm : matchTok true (w0 ++ restJoin ws) = some (w0, restJoin ws) := by
    rw [heq]
    match ds, hd with
    | [], _ =>
      rw [show ([] : List Char) ++ ls = ls from rfl]
      match ls, hl with
      | [], _ =>
        exfalso
        apply hne
        rw [heq]
        rfl
      | l0 :: ls', hl =>
        exact matchTok_start_lower l0 ls' (restJoin ws) (hl l0 (List.mem_cons_self _ _))
          (fun c hc => hl c (List.mem_cons_of_mem _ hc)) hrest
    | d0 :: ds', hd =>
      exact matchTok_digit_word true d0 ds' ls (restJoin ws)
        (hd d0 (List.mem_cons_self _ _))
        (fun c hc => hd c (List.mem_cons_of_mem _ hc)) hl hrest
  rw [hm]
  dsimp only
  rw [List.map_cons, cleanWordL_id_of_shape ⟨ds, ls, heq, hd, hl⟩, tokenize_restJoin ws hws]

/-- A character that may occur in a (ASCII) Go identifier. -/
def isIdentCh (c : Char) : Bool :=
  isLowerCh c || isUpperCh c || isDigitCh c || c = '_'

/-- Claim C9 counterexample: `SnakeCase` is not idempotent.  For the valid Go
identifier `_B` the first pass yields `_b` (the bare leading underscore becomes
an empty word) and the second pass yields `b`, because `_b` re-tokenizes as one
`_`-prefixed word whose underscore is then stripped. -/
theorem snakeCaseNotIdempotentCex :
    SnakeCase "_B" = "_b" ∧ SnakeCase (SnakeCase "_B") = "b" ∧
    SnakeCase (SnakeCase "_B") ≠ SnakeCase "_B" := by
  refine ⟨?_, ?_, ?_⟩ <;> decide

/-- Claim C9, amended: the name normalizer is idempotent on every ASCII
identifier that does not begin with an underscore:
`SnakeCase (SnakeCase x) = SnakeCase x` whenever every character of `x` is a
letter, a digit or `_`, and `x` does not start with `_`. -/
theorem snakeCaseIdempotentAmended (x : String)
    (hid : ∀ c ∈ x.data, isIdentCh c = true)
    (hund : underscoreFirst x = false) :
    SnakeCase (SnakeCase x) = SnakeCase x := by
  unfold SnakeCase
  match hx : x.data with
  | [] => rfl
  | c :: cs =>
    have hcm : c ∈ x.data := by rw [hx]; exact List.mem_cons_self _ _
    have hcid := hid c hcm
    have hcu : c ≠ '_' := by
      simp only [underscoreFirst, hx] at hund
      simp only [decide_eq_false_iff_not] at hund
      exact hund
    have hv : isLowerCh c = true ∨ isUpperCh c = true ∨ isDigitCh c = true := by
      simp only [isIdentCh, Bool.or_eq_true, decide_eq_true_eq] at hcid
      rcases hcid with ((h | h) | h) | h
      · exact Or.inl h
      · exact Or.inr (Or.inl h)
      · exact Or.inr (Or.inr h)
      · exact absurd h hcu
    obtain ⟨t, r, hm, hne⟩ := matchTok_first_ident c cs hv
    have htok : tokenize true x.data = t :: tokenize false r := by
      rw [hx, tokenize_step, hm]
    rw [hx] at htok
    rw [htok, List.map_cons]
    have hshape0 : wordShapeL (cleanWordL t) := matchTok_shape true (c :: cs) t r hm
    have hshapes : ∀ w ∈ (tokenize false r).map cleanWordL, wordShapeL w := by
      intro w hw
      rcases List.mem_map.mp hw with ⟨u, hu, huw⟩
      rw [← huw]
      exact tokenize_shape false r u hu
    have hdata : (String.mk (joinUS (cleanWordL t :: (tokenize false r).map cleanWordL))).data
        = joinUS (cleanWordL t :: (tokenize false r).map cleanWordL) := rfl
    rw [hdata, tokenize_joinUS (cleanWordL t) ((tokenize false r).map cleanWordL)
      hshape0 hne hshapes]

/-- Witness for the amended C9 theorem at a concrete identifier. -/
theorem snakeCaseIdempotentAmendedWitness :
    SnakeCase (SnakeCase "TestKeyTwo") = SnakeCase "TestKeyTwo" :=
  snakeCaseIdempotentAmended "TestKeyTwo" (by decide) (by decide)

theorem shape_no_comma {w : List Char} (h : wordShapeL w) : ∀ c ∈ w, c ≠ ',' := by
  rcases h with ⟨ds, ls, heq, hd, hl⟩
  rw [heq]
  intro c hc heq'
  rcases List.mem_append.mp hc with hc | hc
  · have := hd c hc
    rw [heq'] at this
    simp [isDigitCh] at this
  · have := hl c hc
    rw [heq'] at this
    simp [isLowerCh] at this

theorem mem_restJoin {c : Char} : ∀ {ws : List (List Char)}, c ∈ restJoin ws →
    c = '_' ∨ ∃ w ∈ ws, c ∈ w := by
  intro ws
  induction ws with
  | nil => intro hc; cases hc
  | cons w ws' ih =>
    intro hc
    simp only [restJoin, List.mem_cons, List.mem_append] at hc
    rcases hc with hc | hc | hc
    · exact Or.inl hc
    · exact Or.inr ⟨w, List.mem_cons_self _ _, hc⟩
    · rcases ih hc with h | ⟨u, hu, hcu⟩
      · exact Or.inl h
      · exact Or.inr ⟨u, List.mem_cons_of_mem _ hu, hcu⟩

theorem mem_joinUS {c : Char} {ws : List (List Char)} (hc : c ∈ joinUS ws) :
    c = '_' ∨ ∃ w ∈ ws, c ∈ w := by
  match ws with
  | [] => cases hc
  | w :: ws' =>
    simp only [joinUS, List.mem_append] at hc
    rcases hc with hc | hc
    · exact Or.inr ⟨w, List.mem_cons_self _ _, hc⟩
    · rcases mem_restJoin hc with h | ⟨u, hu, hcu⟩
      · exact Or.inl h
      · exact Or.inr ⟨u, List.mem_cons_of_mem _ hu, hcu⟩

theorem takeWhile_all (p : Char → Bool) (l : List Char) (h : ∀ c ∈ l, p c = true) :
    l.takeWhile p = l := by
  induction l with
  | nil => rfl
  | cons a as ih =>
    simp only [List.takeWhile, h a (List.mem_cons_self _ _)]
    rw [ih (fun c hc => h c (List.mem_cons_of_mem _ hc))]

/-- The normalizer's output never contains a comma, so the
`strings.Split(key, ",")[0]` step of `jsonMap` is the identity on it. -/
theorem firstCommaComp_SnakeCase (nm : String) :
    firstCommaComp (SnakeCase nm) = SnakeCase nm := by
  unfold SnakeCase firstCommaComp
  congr 1
  apply takeWhile_all
  intro c hc
  simp only [decide_eq_true_eq]
  have hc' : c ∈ joinUS ((tokenize true nm.data).map cleanWordL) := hc
  rcases mem_joinUS hc' with h | ⟨w, hw, hcw⟩
  · rw [h]; decide
  · rcases List.mem_map.mp hw with ⟨u, hu, huw⟩
    have hsh : wordShapeL w := huw ▸ tokenize_shape true nm.data u hu
    exact shape_no_comma hsh c hcw

/-- Replace every top-level field's `json` tag (the new tag may depend on the field). -/
def retagTop (g : GoField → String) (fs : List GoField) : List GoField :=
  fs.map (fun f => GoField.mk f.name (g f) f.anonymous f.value)

theorem jsonCore_retag (g : GoField → String) (addr : Bool) :
    ∀ (fs : List GoField) (acc : List (String × GoVal)),
      jsonCore addr (retagTop g fs) acc = jsonCore addr fs acc := by
  intro fs
  induction fs with
  | nil => intro acc; rfl
  | cons f rest ih =>
    intro acc
    cases f with
    | mk nm tg anon v =>
      show jsonCore addr (GoField.mk nm _ anon v :: retagTop g rest) acc = _
      simp only [jsonCore]
      split_ifs <;> apply ih

theorem upsertAll_preserves_key (sub : List (String × GoVal)) :
    ∀ (acc : List (String × GoVal)) (k : String),
      lookupV acc k ≠ none → lookupV (upsertAll acc sub) k ≠ none := by
  induction sub with
  | nil => intro acc k h; exact h
  | cons kv rest ih =>
    intro acc k h
    simp only [upsertAll, List.foldl_cons]
    apply ih
    rw [lookupV_upsert]
    by_cases hk : kv.1 = k
    · rw [if_pos hk]; simp
    · rw [if_neg hk]; exact h

theorem jsonCore_preserves_key (addr : Bool) (fs : List GoField) :
    ∀ (acc : List (String × GoVal)) (k : String),
      lookupV acc k ≠ none → lookupV (jsonCore addr fs acc) k ≠ none := by
  induction fs with
  | nil => intro acc k h; exact h
  | cons f rest ih =>
    intro acc k h
    cases f with
    | mk nm tg anon v =>
      match h1 : upperFirstByte nm with
      | false =>
        rw [jsonCore_skip1 addr nm tg anon v rest acc h1]
        exact ih acc k h
      | true =>
        match h2 : underscoreFirst nm with
        | true =>
          rw [jsonCore_skip2 addr nm tg anon v rest acc h1 h2]
          exact ih acc k h
        | false =>
          match anon with
          | true =>
            rw [jsonCore_anon addr nm tg v rest acc h1 h2]
            exact ih _ k (upsertAll_preserves_key _ acc k h)
          | false =>
            rw [jsonCore_plain addr nm tg v rest acc h1 h2]
            apply ih
            rw [lookupV_upsert]
            by_cases hk : firstCommaComp (SnakeCase nm) = k
            · rw [if_pos hk]; simp
            · rw [if_neg hk]; exact h

theorem notRemove_eq_contains (keysL allowed : List String) (q : String) (hq : q ∈ keysL) :
    (!((keysL.filter (fun k => FindString k allowed == -1)).contains q))
      = allowed.contains q := by
  cases hc : allowed.contains q with
  | true =>
    have hmem : q ∈ allowed := List.mem_of_elem_eq_true hc
    have hnr : q ∉ keysL.filter (fun k => FindString k allowed == -1) := by
      intro hmem2
      have := List.of_mem_filter hmem2
      simp only [beq_iff_eq] at this
      exact (FindString_eq_neg_one_iff q allowed).mp this hmem
    have hcf : (keysL.filter (fun k => FindString k allowed == -1)).contains q = false := by
      cases hcc : (keysL.filter (fun k => FindString k allowed == -1)).contains q with
      | false => rfl
      | true => exact absurd (List.mem_of_elem_eq_true hcc) hnr
    rw [hcf]
    rfl
  | false =>
    have hmem : q ∉ allowed := by
      intro hm
      have h2 : allowed.contains q = true := List.elem_eq_true_of_mem hm
      rw [h2] at hc
      cases hc
    have hfs : FindString q allowed = -1 := (FindString_eq_neg_one_iff q allowed).mpr hmem
    have hin : q ∈ keysL.filter (fun k => FindString k allowed == -1) :=
      List.mem_filter.mpr ⟨hq, by simp [hfs]⟩
    have h3 : (keysL.filter (fun k => FindString k allowed == -1)).contains q = true :=
      List.elem_eq_true_of_mem hin
    rw [h3]
    rfl

/-- `JSONEncode` on a single record keeps exactly the extracted entries whose wire
name is in the allow-list. -/
theorem JSONEncode_single_filter (fails : Bool) (v : GoVal) (allowed : List String)
    (hrec : isRecordVal v = true) :
    JSONEncode fails v allowed
      = writeOut fails (marshalMapS ((jsonMap v).filter
          (fun kv => allowed.contains kv.1)) ++ "\n") := by
  have hfil : ∀ m : List (String × GoVal),
      deleteAll m ((m.map Prod.fst).filter (fun k => FindString k allowed == -1))
        = m.filter (fun kv => allowed.contains kv.1) := by
    intro m
    rw [deleteAll_eq_filter]
    apply List.filter_congr
    intro kv hkv
    exact notRemove_eq_contains (m.map Prod.fst) allowed kv.1
      (List.mem_map.mpr ⟨kv, hkv, rfl⟩)
  match v, hrec with
  | .vStruct fs, _ =>
    show writeOut fails (marshalMapS (deleteAll (jsonMap (GoVal.vStruct fs))
      (((jsonMap (GoVal.vStruct fs)).map Prod.fst).filter
        (fun k => FindString k allowed == -1))) ++ "\n") = _
    rw [hfil]
  | .vPtr (.vStruct fs), _ =>
    show writeOut fails (marshalMapS (deleteAll (jsonMap (GoVal.vPtr (GoVal.vStruct fs)))
      (((jsonMap (GoVal.vPtr (GoVal.vStruct fs))).map Prod.fst).filter
        (fun k => FindString k allowed == -1))) ++ "\n") = _
    rw [hfil]

/-- Claim C1 counterexample: `jsonMap` never consults the `json` tag.  A field
declared `TestKey` with tag `renamed,omitempty` is emitted under
`SnakeCase("TestKey") = "test_key"`, not under the tag's first component
`renamed`. -/
theorem jsonMapTagIgnoredCex :
    jsonMap (.vStruct [GoField.mk "TestKey" "renamed,omitempty" false (.vStr "v")])
      = [("test_key", GoVal.vStr "v")] ∧
    firstCommaComp "renamed,omitempty" = "renamed" ∧
    ("test_key" : String) ≠ "renamed" :=
  ⟨rfl, rfl, by decide⟩

/-- Claim C1, amended: the Structural Field Extractor's wire name is always
`SnakeCase(declaredName)` — equivalently its first comma-separated component,
which is a no-op because the normalizer never emits a comma — and the `json` tag
is ignored entirely (`jsonCore` is invariant under retagging).  The flat
allow-list filtering of `JSONEncode` matches against this wire name, never the
declared name: the kept entries are exactly the extracted entries whose wire
name is in `allowed`.  The hierarchical tree branch instead matches a field by
its whole `json` tag when nonempty and by its declared name otherwise, as the
three concrete encodings show. -/
theorem wireNameSnakeCaseAmended :
    (∀ (g : GoField → String) (addr : Bool) (fs : List GoField)
        (acc : List (String × GoVal)),
        jsonCore addr (retagTop g fs) acc = jsonCore addr fs acc) ∧
    (∀ nm : String, firstCommaComp (SnakeCase nm) = SnakeCase nm) ∧
    (∀ (addr : Bool) (pre post : List GoField) (nm tg : String) (v : GoVal)
        (acc : List (String × GoVal)),
        upperFirstByte nm = true → underscoreFirst nm = false →
        lookupV (jsonCore addr (pre ++ GoField.mk nm tg false v :: post) acc)
          (SnakeCase nm) ≠ none) ∧
    (∀ (fails : Bool) (v : GoVal) (allowed : List String), isRecordVal v = true →
        JSONEncode fails v allowed
          = writeOut fails (marshalMapS ((jsonMap v).filter
              (fun kv => allowed.contains kv.1)) ++ "\n")) ∧
    (JSONEncodeHierarchy false (.vStruct [GoField.mk "UserID" "uid" false (.vInt 7)])
        (Allowed.tree [("uid", Allowed.nil)]) = Except.ok "\x7b\"uid\": 7\n\x7d" ∧
     JSONEncodeHierarchy false (.vStruct [GoField.mk "UserID" "uid" false (.vInt 7)])
        (Allowed.tree [("user_id", Allowed.nil)]) = Except.ok "\x7b\x7d" ∧
     JSONEncodeHierarchy false (.vStruct [GoField.mk "UserID" "" false (.vInt 7)])
        (Allowed.tree [("UserID", Allowed.nil)]) = Except.ok "\x7b\"UserID\": 7\n\x7d") := by
  refine ⟨jsonCore_retag, firstCommaComp_SnakeCase, ?_, JSONEncode_single_filter,
    rfl, rfl, rfl⟩
  intro addr pre post nm tg v acc h1 h2
  rw [← firstCommaComp_SnakeCase nm]
  rw [jsonCore_append, jsonCore_plain addr nm tg v post _ h1 h2]
  apply jsonCore_preserves_key
  rw [lookupV_upsert, if_pos rfl]
  simp

/-- Witness for the amended C1 theorem: the field `TestKey` (tagged
`renamed,omitempty`) is present in the extracted map under `test_key`, and the
flat encoder keeps exactly the allowed wire names. -/
theorem wireNameSnakeCaseAmendedWitness :
    lookupV (jsonCore false ([] ++ GoField.mk "TestKey" "renamed,omitempty" false
        (GoVal.vStr "v") :: []) []) (SnakeCase "TestKey") ≠ none ∧
    JSONEncode false (.vStruct [GoField.mk "ID" "" false (.vInt 3)]) ["id"]
      = writeOut false (marshalMapS
          ((jsonMap (.vStruct [GoField.mk "ID" "" false (.vInt 3)])).filter
            (fun kv => (["id"] : List String).contains kv.1)) ++ "\n") :=
  ⟨wireNameSnakeCaseAmended.2.2.1 false [] [] "TestKey" "renamed,omitempty"
      (GoVal.vStr "v") [] (by decide) (by decide),
   wireNameSnakeCaseAmended.2.2.2.1 false (.vStruct [GoField.mk "ID" "" false (.vInt 3)])
      ["id"] (by decide)⟩
